import Mathlib

/-!
# Verification of the RAi compliance analysis pipeline core

Shallow embedding of `backend/app/services/compliance` (analysis engine,
chunking service, orchestrator cache keying) with proofs about:

* the 7-rule anti-hallucination validator (`validate_result`),
* two-phase question sequencing and follow-up trigger filtering,
* batched processing with per-batch error containment,
* result aggregation and the compliance score,
* text chunking (paragraph accumulation, overlap, split points),
* the deterministic questions hash key used for caching.

Conventions of the embedding:

* Python `float` confidence values are embedded as `ℚ`.  The validation
  rules only compare confidences with, and cap them at, the constants
  0.7, 0.6, 0.5, and these operations are exact in either representation.
* Python strings are embedded as `String`; `len` is `String.length`
  (both count code points).  Missing dictionary keys read through
  `dict.get(k, default)` are embedded as fields holding the default.
* Wall-clock fields (`analysis_time_ms`) and logging are not modelled.
-/

namespace RAi

/-- Whitespace set of Python `str.strip()` and of `\s` in the chunker's
regexes (ASCII part): space, tab, newline, carriage return, vertical tab,
form feed. -/
def pyIsSpace (c : Char) : Bool :=
  c = ' ' || c = '\t' || c = '\n' || c = '\r' || c = '\x0b' || c = '\x0c'

/-- Python `str.strip()` on a character list. -/
def pstripList (cs : List Char) : List Char :=
  ((cs.dropWhile pyIsSpace).reverse.dropWhile pyIsSpace).reverse

/-- Python `str.strip()`. -/
def pyStrip (s : String) : String := ⟨pstripList s.data⟩

/-- Python `str.upper()` (ASCII case mapping, which is all the engine's
status strings exercise). -/
def pyUpper (s : String) : String := ⟨s.data.map Char.toUpper⟩

/-- Python `str.lower()` (ASCII case mapping). -/
def pyLower (s : String) : String := ⟨s.data.map Char.toLower⟩

/-- Does `needle` occur at the head of `hay`? -/
def headMatch : List Char → List Char → Bool
  | _, [] => true
  | [], _ :: _ => false
  | a :: as, b :: bs => a = b && headMatch as bs

/-- Python `needle in hay` substring test, on character lists. -/
def hasSubList (hay needle : List Char) : Bool :=
  match hay with
  | [] => needle.isEmpty
  | _ :: t => headMatch hay needle || hasSubList t needle

/-- Python `needle in hay` substring test. -/
def hasSub (hay needle : String) : Bool := hasSubList hay.data needle.data

/-! ## Analysis result dictionaries and the anti-hallucination validator

From `analysis_engine.py`, `validate_result` (lines 268–338).  A parsed
result dictionary is embedded as a structure holding the keys the
validator reads and writes; a missing `confidence` key is the constant
`0.0` and missing string keys are `""`, matching the `dict.get`
defaults in the source. -/

structure RDict where
  status : String
  confidence : ℚ
  explanation : String
  evidence : String
  suggested_disclosure : String
  decision_tree_path : List String
deriving Repr, DecidableEq

/-- The recognised "not applicable" justification phrases of Rule 2. -/
def naPatterns : List String :=
  ["not applicable", "does not apply", "not relevant",
   "not required", "outside the scope", "no such",
   "entity does not", "company does not"]

/-- `any(p in explanation.lower() for p in na_patterns)`. -/
def hasNaJustification (explanation : String) : Bool :=
  naPatterns.any (fun p => hasSub (pyLower explanation) p)

/-- The synonym map of Rule 4 (`status_map.get(status, status)`). -/
def statusMap (s : String) : String :=
  if s = "YES" ∨ s = "COMPLIANT" ∨ s = "TRUE" ∨ s = "PASS" then "YES"
  else if s = "NO" ∨ s = "NON-COMPLIANT" ∨ s = "NON_COMPLIANT" ∨
      s = "FALSE" ∨ s = "FAIL" then "NO"
  else if s = "N/A" ∨ s = "NA" ∨ s = "NOT APPLICABLE" ∨
      s = "NOT_APPLICABLE" then "N/A"
  else s

/-- The explanatory text prepended by Rule 6 when no context was available. -/
def insufficientCtxMsg : String :=
  "Insufficient document context available to assess this requirement. "

/-- The generic placeholder disclosure of Rule 7. -/
def genericDisclosure : String :=
  "Review and address the non-compliance identified in the explanation above."

/-- Rule 1: evidence under 20 characters caps confidence at 0.7. -/
def rule1 (v : RDict) : RDict :=
  if v.evidence.length < 20 then
    { v with confidence := min v.confidence (7/10) } else v

/-- Rule 2: an `N/A` status without a recognised justification phrase and
with an explanation under 30 characters caps confidence at 0.5.
`status` is the upper-cased, stripped status captured before Rule 4. -/
def rule2 (status : String) (v : RDict) : RDict :=
  if status = "N/A" ∧ ¬ hasNaJustification v.explanation = true ∧
      v.explanation.length < 30 then
    { v with confidence := min v.confidence (1/2) } else v

/-- Rule 3: `YES`/`NO` status with evidence under 10 characters caps
confidence at 0.6. -/
def rule3 (status : String) (v : RDict) : RDict :=
  if (status = "YES" ∨ status = "NO") ∧ v.evidence.length < 10 then
    { v with confidence := min v.confidence (3/5) } else v

/-- Rule 4: status normalisation through the synonym map. -/
def rule4 (status : String) (v : RDict) : RDict :=
  { v with status := statusMap status }

/-- Rule 5: an explanation under 20 characters caps confidence at 0.5. -/
def rule5 (v : RDict) : RDict :=
  if v.explanation.length < 20 then
    { v with confidence := min v.confidence (1/2) } else v

/-- Rule 6: without available context, confidence is capped at 0.5 and a
non-`N/A` status is forced to `N/A` with an explanatory line prepended. -/
def rule6 (context_available : Bool) (v : RDict) : RDict :=
  if context_available then v
  else if v.status ≠ "N/A" then
    { v with confidence := min v.confidence (1/2), status := "N/A",
             explanation := insufficientCtxMsg ++ v.explanation }
  else { v with confidence := min v.confidence (1/2) }

/-- Rule 7: a `NO` result with an absent or under-10-character suggested
disclosure receives the generic placeholder disclosure. -/
def rule7 (v : RDict) : RDict :=
  if v.status = "NO" ∧
      (v.suggested_disclosure = "" ∨ v.suggested_disclosure.length < 10) then
    { v with suggested_disclosure := genericDisclosure } else v

/-- `validate_result(result, context_available)`: the 7 anti-hallucination
rules, in source order.  The upper-cased stripped status is captured once,
between Rule 1 and Rule 2, and feeds Rules 2, 3 and 4 — exactly as the
local variable `status` does in the source. -/
def validate_result (result : RDict) (context_available : Bool) : RDict :=
  let v := rule1 result
  let status := pyStrip (pyUpper v.status)
  rule7 (rule6 context_available (rule5 (rule4 status (rule3 status (rule2 status v)))))

/-! ### Per-rule facts -/

theorem rule1_conf_le (v : RDict) : (rule1 v).confidence ≤ v.confidence := by
  unfold rule1; split_ifs <;> simp [min_le_left]

theorem rule2_conf_le (s : String) (v : RDict) :
    (rule2 s v).confidence ≤ v.confidence := by
  unfold rule2; split_ifs <;> simp [min_le_left]

theorem rule3_conf_le (s : String) (v : RDict) :
    (rule3 s v).confidence ≤ v.confidence := by
  unfold rule3; split_ifs <;> simp [min_le_left]

theorem rule4_conf (s : String) (v : RDict) :
    (rule4 s v).confidence = v.confidence := rfl

theorem rule5_conf_le (v : RDict) : (rule5 v).confidence ≤ v.confidence := by
  unfold rule5; split_ifs <;> simp [min_le_left]

theorem rule6_conf_le (c : Bool) (v : RDict) :
    (rule6 c v).confidence ≤ v.confidence := by
  unfold rule6; split_ifs <;> simp [min_le_left]

theorem rule7_conf (v : RDict) : (rule7 v).confidence = v.confidence := by
  unfold rule7; split_ifs <;> rfl

theorem rule7_status (v : RDict) : (rule7 v).status = v.status := by
  unfold rule7; split_ifs <;> rfl

theorem rule7_explanation (v : RDict) : (rule7 v).explanation = v.explanation := by
  unfold rule7; split_ifs <;> rfl

theorem rule7_evidence (v : RDict) : (rule7 v).evidence = v.evidence := by
  unfold rule7; split_ifs <;> rfl

theorem rule6_false_status (v : RDict) : (rule6 false v).status = "N/A" := by
  unfold rule6; split_ifs with h h₁ <;> simp_all

theorem rule6_false_conf_le_half (v : RDict) :
    (rule6 false v).confidence ≤ 1/2 := by
  unfold rule6; split_ifs <;> simp_all [min_le_right]

/-- The validator, applied with `context_available = false`, always returns
status `"N/A"` and confidence at most `0.5`, whatever the parsed result
contained (helper behind the batch-level no-context theorem). -/
theorem validate_result_no_context (r : RDict) :
    (validate_result r false).status = "N/A" ∧
    (validate_result r false).confidence ≤ 1/2 := by
  unfold validate_result
  constructor
  · rw [rule7_status, rule6_false_status]
  · rw [rule7_conf]; exact rule6_false_conf_le_half _

/-- **C9.** `validate_result` never increases confidence: for every input
result dictionary (a missing `confidence` key reading as `0.0`) and every
value of the context-available flag, the returned confidence is at most
the input confidence. -/
theorem validate_result_never_increases_confidence (r : RDict) (ctx : Bool) :
    (validate_result r ctx).confidence ≤ r.confidence := by
  unfold validate_result
  calc (rule7 (rule6 ctx (rule5 (rule4 (pyStrip (pyUpper (rule1 r).status))
          (rule3 (pyStrip (pyUpper (rule1 r).status))
            (rule2 (pyStrip (pyUpper (rule1 r).status)) (rule1 r))))))).confidence
      = (rule6 ctx (rule5 (rule4 (pyStrip (pyUpper (rule1 r).status))
          (rule3 (pyStrip (pyUpper (rule1 r).status))
            (rule2 (pyStrip (pyUpper (rule1 r).status)) (rule1 r)))))).confidence :=
        rule7_conf _
    _ ≤ r.confidence := by
        refine le_trans (rule6_conf_le _ _) ?_
        refine le_trans (rule5_conf_le _) ?_
        rw [rule4_conf]
        refine le_trans (rule3_conf_le _ _) ?_
        exact le_trans (rule2_conf_le _ _) (rule1_conf_le _)

/-! ### Field-preservation facts for the validator rules -/

theorem rule1_status (v : RDict) : (rule1 v).status = v.status := by
  unfold rule1; split_ifs <;> rfl

theorem rule1_explanation (v : RDict) : (rule1 v).explanation = v.explanation := by
  unfold rule1; split_ifs <;> rfl

theorem rule1_evidence (v : RDict) : (rule1 v).evidence = v.evidence := by
  unfold rule1; split_ifs <;> rfl

theorem rule1_disclosure (v : RDict) :
    (rule1 v).suggested_disclosure = v.suggested_disclosure := by
  unfold rule1; split_ifs <;> rfl

theorem rule2_status (s : String) (v : RDict) : (rule2 s v).status = v.status := by
  unfold rule2; split_ifs <;> rfl

theorem rule2_explanation (s : String) (v : RDict) :
    (rule2 s v).explanation = v.explanation := by
  unfold rule2; split_ifs <;> rfl

theorem rule2_evidence (s : String) (v : RDict) :
    (rule2 s v).evidence = v.evidence := by
  unfold rule2; split_ifs <;> rfl

theorem rule2_disclosure (s : String) (v : RDict) :
    (rule2 s v).suggested_disclosure = v.suggested_disclosure := by
  unfold rule2; split_ifs <;> rfl

theorem rule3_status (s : String) (v : RDict) : (rule3 s v).status = v.status := by
  unfold rule3; split_ifs <;> rfl

theorem rule3_explanation (s : String) (v : RDict) :
    (rule3 s v).explanation = v.explanation := by
  unfold rule3; split_ifs <;> rfl

theorem rule3_evidence (s : String) (v : RDict) :
    (rule3 s v).evidence = v.evidence := by
  unfold rule3; split_ifs <;> rfl

theorem rule3_disclosure (s : String) (v : RDict) :
    (rule3 s v).suggested_disclosure = v.suggested_disclosure := by
  unfold rule3; split_ifs <;> rfl

theorem rule4_status (s : String) (v : RDict) : (rule4 s v).status = statusMap s := rfl

theorem rule4_explanation (s : String) (v : RDict) :
    (rule4 s v).explanation = v.explanation := rfl

theorem rule4_evidence (s : String) (v : RDict) : (rule4 s v).evidence = v.evidence := rfl

theorem rule4_disclosure (s : String) (v : RDict) :
    (rule4 s v).suggested_disclosure = v.suggested_disclosure := rfl

theorem rule5_status (v : RDict) : (rule5 v).status = v.status := by
  unfold rule5; split_ifs <;> rfl

theorem rule5_explanation (v : RDict) : (rule5 v).explanation = v.explanation := by
  unfold rule5; split_ifs <;> rfl

theorem rule5_evidence (v : RDict) : (rule5 v).evidence = v.evidence := by
  unfold rule5; split_ifs <;> rfl

theorem rule5_disclosure (v : RDict) :
    (rule5 v).suggested_disclosure = v.suggested_disclosure := by
  unfold rule5; split_ifs <;> rfl

theorem rule6_true (v : RDict) : rule6 true v = v := rfl

theorem rule6_evidence (c : Bool) (v : RDict) : (rule6 c v).evidence = v.evidence := by
  unfold rule6; split_ifs <;> rfl

theorem rule6_disclosure (c : Bool) (v : RDict) :
    (rule6 c v).suggested_disclosure = v.suggested_disclosure := by
  unfold rule6; split_ifs <;> rfl

theorem rule7_disclosure_ok (v : RDict) (h : (rule7 v).status = "NO") :
    ¬((rule7 v).suggested_disclosure = "" ∨
      (rule7 v).suggested_disclosure.length < 10) := by
  rw [rule7_status] at h
  unfold rule7
  split_ifs with hc
  · show ¬(genericDisclosure = "" ∨ genericDisclosure.length < 10)
    decide
  · rw [not_or]
    rcases not_and_or.mp hc with h' | h'
    · exact absurd h h'
    · exact not_or.mp h'

/-! ### Idempotence analysis

`validate_result` is a fixpoint on results that already satisfy all the
caps and whose status is canonical; the lemmas below establish when a
first validation pass produces such a result. -/

/-- A status string is canonical when it is one of the three values the
synonym map targets. -/
def canonicalStatus (s : String) : Prop := s = "YES" ∨ s = "NO" ∨ s = "N/A"

theorem canon_norm {s : String} (h : canonicalStatus s) :
    pyStrip (pyUpper s) = s := by
  rcases h with h | h | h <;> subst h <;> decide

theorem statusMap_canon {s : String} (h : canonicalStatus s) : statusMap s = s := by
  rcases h with h | h | h <;> subst h <;> decide

theorem rule1_fired {v : RDict} (h : v.evidence.length < 20) :
    (rule1 v).confidence ≤ 7/10 := by
  unfold rule1; rw [if_pos h]; exact min_le_right _ _

theorem rule2_fired {s : String} {v : RDict} (h1 : s = "N/A")
    (h2 : ¬hasNaJustification v.explanation = true) (h3 : v.explanation.length < 30) :
    (rule2 s v).confidence ≤ 1/2 := by
  unfold rule2; rw [if_pos ⟨h1, h2, h3⟩]; exact min_le_right _ _

theorem rule3_fired {s : String} {v : RDict} (h1 : s = "YES" ∨ s = "NO")
    (h2 : v.evidence.length < 10) : (rule3 s v).confidence ≤ 3/5 := by
  unfold rule3; rw [if_pos ⟨h1, h2⟩]; exact min_le_right _ _

theorem rule5_fired {v : RDict} (h : v.explanation.length < 20) :
    (rule5 v).confidence ≤ 1/2 := by
  unfold rule5; rw [if_pos h]; exact min_le_right _ _

theorem rule1_fix {v : RDict} (h : v.evidence.length < 20 → v.confidence ≤ 7/10) :
    rule1 v = v := by
  unfold rule1; split_ifs with hc
  · rw [min_eq_left (h hc)]
  · rfl

theorem rule2_fix {s : String} {v : RDict}
    (h : s = "N/A" → ¬hasNaJustification v.explanation = true →
      v.explanation.length < 30 → v.confidence ≤ 1/2) :
    rule2 s v = v := by
  unfold rule2; split_ifs with hc
  · rw [min_eq_left (h hc.1 hc.2.1 hc.2.2)]
  · rfl

theorem rule3_fix {s : String} {v : RDict}
    (h : (s = "YES" ∨ s = "NO") → v.evidence.length < 10 → v.confidence ≤ 3/5) :
    rule3 s v = v := by
  unfold rule3; split_ifs with hc
  · rw [min_eq_left (h hc.1 hc.2)]
  · rfl

theorem rule4_fix {s : String} {v : RDict} (h : statusMap s = v.status) :
    rule4 s v = v := by
  unfold rule4; rw [h]

theorem rule5_fix {v : RDict}
    (h : v.explanation.length < 20 → v.confidence ≤ 1/2) : rule5 v = v := by
  unfold rule5; split_ifs with hc
  · rw [min_eq_left (h hc)]
  · rfl

theorem rule6_fix {c : Bool} {v : RDict}
    (h : c = false → v.confidence ≤ 1/2 ∧ v.status = "N/A") : rule6 c v = v := by
  cases c
  · unfold rule6
    rw [if_neg (by simp), if_neg (by simpa using (h rfl).2),
      min_eq_left (h rfl).1]
  · rfl

theorem rule7_fix {v : RDict}
    (h : v.status = "NO" →
      ¬(v.suggested_disclosure = "" ∨ v.suggested_disclosure.length < 10)) :
    rule7 v = v := by
  unfold rule7; split_ifs with hc
  · exact absurd hc.2 (h hc.1)
  · rfl

/-- One validation pass is the identity on results already satisfying all
seven rules' caps with a canonical status. -/
theorem validate_result_fix (v : RDict) (ctx : Bool)
    (canon : canonicalStatus v.status)
    (h1 : v.evidence.length < 20 → v.confidence ≤ 7/10)
    (h2 : v.status = "N/A" → ¬hasNaJustification v.explanation = true →
      v.explanation.length < 30 → v.confidence ≤ 1/2)
    (h3 : (v.status = "YES" ∨ v.status = "NO") → v.evidence.length < 10 →
      v.confidence ≤ 3/5)
    (h5 : v.explanation.length < 20 → v.confidence ≤ 1/2)
    (h6 : ctx = false → v.confidence ≤ 1/2 ∧ v.status = "N/A")
    (h7 : v.status = "NO" →
      ¬(v.suggested_disclosure = "" ∨ v.suggested_disclosure.length < 10)) :
    validate_result v ctx = v := by
  unfold validate_result
  rw [rule1_fix h1]
  show rule7 (rule6 ctx (rule5 (rule4 (pyStrip (pyUpper v.status))
    (rule3 (pyStrip (pyUpper v.status))
      (rule2 (pyStrip (pyUpper v.status)) v))))) = v
  rw [canon_norm canon, rule2_fix h2, rule3_fix h3,
    rule4_fix (statusMap_canon canon), rule5_fix h5, rule6_fix h6, rule7_fix h7]

theorem validate_result_eq (r : RDict) (ctx : Bool) :
    validate_result r ctx =
      rule7 (rule6 ctx (rule5 (rule4 (pyStrip (pyUpper r.status))
        (rule3 (pyStrip (pyUpper r.status))
          (rule2 (pyStrip (pyUpper r.status)) (rule1 r)))))) := by
  have h1 : pyStrip (pyUpper (rule1 r).status) = pyStrip (pyUpper r.status) := by
    rw [rule1_status]
  unfold validate_result
  show rule7 (rule6 ctx (rule5 (rule4 (pyStrip (pyUpper (rule1 r).status))
    (rule3 (pyStrip (pyUpper (rule1 r).status))
      (rule2 (pyStrip (pyUpper (rule1 r).status)) (rule1 r)))))) = _
  rw [h1]

theorem va_evidence (r : RDict) (ctx : Bool) :
    (validate_result r ctx).evidence = r.evidence := by
  rw [validate_result_eq, rule7_evidence, rule6_evidence, rule5_evidence,
    rule4_evidence, rule3_evidence, rule2_evidence, rule1_evidence]

theorem va_status (r : RDict) (ctx : Bool)
    (h : canonicalStatus (pyStrip (pyUpper r.status))) :
    (validate_result r ctx).status =
      if ctx then pyStrip (pyUpper r.status) else "N/A" := by
  rw [validate_result_eq]
  cases ctx
  · rw [rule7_status, rule6_false_status]; simp
  · rw [rule7_status, rule6_true, rule5_status, rule4_status,
      statusMap_canon h]; simp

theorem va_explanation_true (r : RDict) :
    (validate_result r true).explanation = r.explanation := by
  rw [validate_result_eq, rule7_explanation, rule6_true, rule5_explanation,
    rule4_explanation, rule3_explanation, rule2_explanation, rule1_explanation]

theorem va_conf_false (r : RDict) :
    (validate_result r false).confidence ≤ 1/2 :=
  (validate_result_no_context r).2

theorem va_conf_le_stage5 (r : RDict) (ctx : Bool) :
    (validate_result r ctx).confidence ≤
      (rule5 (rule4 (pyStrip (pyUpper r.status))
        (rule3 (pyStrip (pyUpper r.status))
          (rule2 (pyStrip (pyUpper r.status)) (rule1 r))))).confidence := by
  rw [validate_result_eq, rule7_conf]; exact rule6_conf_le _ _

theorem va_conf_le_stage3 (r : RDict) (ctx : Bool) :
    (validate_result r ctx).confidence ≤
      (rule3 (pyStrip (pyUpper r.status))
        (rule2 (pyStrip (pyUpper r.status)) (rule1 r))).confidence := by
  refine le_trans (va_conf_le_stage5 r ctx) (le_trans (rule5_conf_le _) ?_)
  rw [rule4_conf]

theorem va_conf_le_stage2 (r : RDict) (ctx : Bool) :
    (validate_result r ctx).confidence ≤
      (rule2 (pyStrip (pyUpper r.status)) (rule1 r)).confidence :=
  le_trans (va_conf_le_stage3 r ctx) (rule3_conf_le _ _)

theorem va_conf_le_stage1 (r : RDict) (ctx : Bool) :
    (validate_result r ctx).confidence ≤ (rule1 r).confidence :=
  le_trans (va_conf_le_stage2 r ctx) (rule2_conf_le _ _)

/-- **C2 (amended).** The anti-hallucination validator is idempotent on
every result whose upper-cased, stripped status is already one of the
three canonical values `YES`/`NO`/`N/A`: re-validating such a result with
the same context flag changes nothing.  (The unrestricted claim fails —
see the counterexample — because a synonym status such as `COMPLIANT`
bypasses Rule 3 on the first pass and triggers it on the second.) -/
theorem validate_result_idempotent_on_canonical (r : RDict) (ctx : Bool)
    (h : canonicalStatus (pyStrip (pyUpper r.status))) :
    validate_result (validate_result r ctx) ctx = validate_result r ctx := by
  apply validate_result_fix
  · -- canonical status after one pass
    rw [va_status r ctx h]
    cases ctx
    · simp [canonicalStatus]
    · simpa using h
  · -- Rule 1 cap already holds
    intro hev
    rw [va_evidence] at hev
    exact le_trans (va_conf_le_stage1 r ctx) (rule1_fired hev)
  · -- Rule 2 cap already holds
    intro hst hj hlen
    cases ctx
    · exact va_conf_false r
    · rw [va_status r true h] at hst
      simp only [if_true] at hst
      rw [va_explanation_true r] at hj hlen
      refine le_trans (va_conf_le_stage2 r true) (rule2_fired ?_ ?_ ?_)
      · simpa using hst
      · rw [rule1_explanation]; exact hj
      · rw [rule1_explanation]; exact hlen
  · -- Rule 3 cap already holds
    intro hst hev
    cases ctx
    · rw [va_status r false h] at hst
      simp at hst
    · rw [va_status r true h] at hst
      simp only [if_true] at hst
      rw [va_evidence] at hev
      refine le_trans (va_conf_le_stage3 r true) (rule3_fired (by simpa using hst) ?_)
      rw [rule2_evidence, rule1_evidence]; exact hev
  · -- Rule 5 cap already holds
    intro hlen
    cases ctx
    · exact va_conf_false r
    · rw [va_explanation_true r] at hlen
      refine le_trans (va_conf_le_stage5 r true) (rule5_fired ?_)
      rw [rule4_explanation, rule3_explanation, rule2_explanation,
        rule1_explanation]
      exact hlen
  · -- Rule 6 postcondition already holds
    intro hc
    cases ctx
    · exact ⟨va_conf_false r, by rw [va_status r false h]; simp⟩
    · exact absurd hc (by simp)
  · -- Rule 7 postcondition already holds
    intro hst
    rw [validate_result_eq] at hst
    rw [validate_result_eq]
    exact rule7_disclosure_ok _ hst

/-- Witness for the amended C2 theorem at a concrete canonical result. -/
theorem validate_result_idempotent_on_canonical_witness :
    validate_result (validate_result
      ⟨"YES", 9/10, "short", "brief", "", []⟩ true) true =
    validate_result ⟨"YES", 9/10, "short", "brief", "", []⟩ true :=
  validate_result_idempotent_on_canonical
    ⟨"YES", 9/10, "short", "brief", "", []⟩ true (by left; decide)

/-- **C2 (counterexample).** The validator is not idempotent as claimed:
for the parsed result with status `COMPLIANT`, confidence `1.0`, empty
evidence and a 37-character explanation, with context available, the
first pass caps confidence at 0.7 and normalises the status to `YES`
(Rule 3 does not fire because the pre-normalisation status `COMPLIANT` is
not in `("YES", "NO")`), while a second pass further caps confidence at
0.6 via Rule 3 — so re-validating is not a no-op. -/
theorem validate_result_not_idempotent :
    validate_result (validate_result
      ⟨"COMPLIANT", 1, "A sufficiently long explanation text.", "", "", []⟩ true) true ≠
    validate_result
      ⟨"COMPLIANT", 1, "A sufficiently long explanation text.", "", "", []⟩ true := by
  have h1 : validate_result
      ⟨"COMPLIANT", 1, "A sufficiently long explanation text.", "", "", []⟩ true =
      ⟨"YES", 7/10, "A sufficiently long explanation text.", "", "", []⟩ := by
    rw [validate_result_eq]
    simp +decide only [rule1, rule2, rule3, rule4, rule5, rule6, rule7,
      statusMap, if_true, if_false]
    norm_num [min_def]
  rw [h1]
  have h2 : validate_result
      ⟨"YES", 7/10, "A sufficiently long explanation text.", "", "", []⟩ true =
      ⟨"YES", 3/5, "A sufficiently long explanation text.", "", "", []⟩ := by
    rw [validate_result_eq]
    simp +decide only [rule1, rule2, rule3, rule4, rule5, rule6, rule7,
      statusMap, if_true, if_false]
    norm_num [min_def]
  rw [h2]
  intro hEq
  have hconf := congrArg RDict.confidence hEq
  simp only at hconf
  norm_num at hconf

attribute [irreducible] validate_result

/-! ## Engine data model

From `analysis_engine.py`: the `ComplianceStatus` enum, the
`AnalysisResult` dataclass (the wall-clock `analysis_time_ms` field is
not modelled) and the question dictionaries read by the engine (fields
are total, holding the `dict.get` default where the source supplies
one: `""` for `source_trigger`, `None` for `source_question`). -/

inductive CStatus
  | compliant
  | nonCompliant
  | notApplicable
  | pending
  | error
deriving DecidableEq, Repr

/-- `ComplianceStatus.value`: the string carried by each enum member. -/
def CStatus.value : CStatus → String
  | .compliant => "YES"
  | .nonCompliant => "NO"
  | .notApplicable => "N/A"
  | .pending => "PENDING"
  | .error => "ERROR"

/-- `ComplianceStatus(status_str)` with the `ValueError` fall-back to
`NOT_APPLICABLE`, as in `_process_single_batch`. -/
def statusOfString (s : String) : CStatus :=
  if s = "YES" then .compliant
  else if s = "NO" then .nonCompliant
  else if s = "N/A" then .notApplicable
  else if s = "PENDING" then .pending
  else if s = "ERROR" then .error
  else .notApplicable

structure Question where
  id : String
  sectionName : String
  reference : String
  question : String
  questionType : String
  sourceQuestion : Option String
  sourceTrigger : String
  contextRequired : String
deriving DecidableEq, Repr

structure AResult where
  question_id : String
  standard : String
  sectionName : String
  reference : String
  question : String
  status : CStatus
  confidence : ℚ
  explanation : String
  evidence : String
  suggested_disclosure : String
  decision_tree_path : List String
  context_used : List String
  sequence : Nat
  error : Option String
deriving DecidableEq, Repr

/-- A parsed `===RESULT_START===` block: the question id it names plus
the field dictionary handed to `validate_result`. -/
structure Parsed where
  question_id : String
  rdict : RDict
deriving DecidableEq, Repr

/-- Last-wins key lookup: the value a Python dict built by inserting the
pairs in order associates with `k` (later inserts overwrite earlier). -/
def lastAssoc {α : Type} (ps : List (String × α)) (k : String) : Option α :=
  ((ps.filter (fun p => p.1 == k)).map Prod.snd).getLast?

/-- The `ERROR` result built for each question of a batch whose LLM call
raised, carrying the error message (`_process_single_batch`, except
branch); unset dataclass fields hold their defaults. -/
def errorResult (q : Question) (sequence : Nat) (e : String) : AResult :=
  { question_id := q.id, standard := q.sectionName, sectionName := q.sectionName,
    reference := q.reference, question := q.question,
    status := .error, confidence := 0, explanation := "", evidence := "",
    suggested_disclosure := "", decision_tree_path := [], context_used := [],
    sequence := sequence, error := some e }

/-- The low-confidence `N/A` placeholder dictionary used when the model
returned no block for a question. -/
def placeholderDict : RDict :=
  { status := "N/A", confidence := 3/10,
    explanation := "AI did not return a result for this question.",
    evidence := "", suggested_disclosure := "", decision_tree_path := [] }

/-- Assembling an `AnalysisResult` from the validated dictionary
(`_process_single_batch`, final loop). -/
def resultFromValidated (q : Question) (validated : RDict)
    (ctxTexts : List String) (sequence : Nat) : AResult :=
  { question_id := q.id, standard := q.sectionName, sectionName := q.sectionName,
    reference := q.reference, question := q.question,
    status := statusOfString validated.status,
    confidence := validated.confidence,
    explanation := validated.explanation,
    evidence := validated.evidence,
    suggested_disclosure := validated.suggested_disclosure,
    decision_tree_path := validated.decision_tree_path,
    context_used := ctxTexts,
    sequence := sequence, error := none }

/-- The context snippet texts the engine records for a question id:
`question_context_texts.get(q_id, [])`, where the per-id dict is filled
in batch order (last question with a given id wins). -/
def contextTexts (search : Question → List String)
    (questions : List Question) (qid : String) : List String :=
  (lastAssoc (questions.map fun q => (q.id, search q)) qid).getD []

/-- The `question_contexts.get(q_id, False)` flag: context was available
for the question iff its recorded snippet list is non-empty. -/
def contextFlag (search : Question → List String)
    (questions : List Question) (qid : String) : Bool :=
  !(contextTexts search questions qid).isEmpty

/-- `_process_single_batch`.  Retrieval (`search_for_context` or the
local fall-back) is abstracted as `search`, giving the list of context
snippet texts per question; the LLM round-trip plus
`parse_analysis_response` is abstracted as `llm`, giving either the
parsed result blocks or the raised error's message.  Every question of
the batch yields exactly one result: a parsed block is validated with
the question's context flag, a missing block becomes the placeholder,
and a raised LLM call turns the whole batch into `ERROR` results. -/
def processSingleBatch (search : Question → List String)
    (llm : List Question → Except String (List Parsed))
    (sequence : Nat) (questions : List Question) : List AResult :=
  match llm questions with
  | .error e => questions.map fun q => errorResult q sequence e
  | .ok parsedList =>
    questions.map fun q =>
      let context_available := contextFlag search questions q.id
      let validated :=
        match lastAssoc (parsedList.map fun p => (p.question_id, p.rdict)) q.id with
        | some parsed => validate_result parsed context_available
        | none => placeholderDict
      resultFromValidated q validated (contextTexts search questions q.id) sequence

/-- `range(0, len(questions), batch_size)` slicing of `_analyze_batch`,
via structural recursion on a fuel bounded by the list length (Python's
`range` would raise for a zero step; the engine always passes 5). -/
def chunksOfFuel {α : Type} (bs : Nat) : Nat → List α → List (List α)
  | _, [] => []
  | 0, _ :: _ => []
  | fuel + 1, l => l.take bs :: chunksOfFuel bs fuel (l.drop bs)

def chunksOf {α : Type} (bs : Nat) (l : List α) : List (List α) :=
  if bs = 0 then [] else chunksOfFuel bs l.length l

/-- `_analyze_batch`: process the questions in consecutive batches of
`batch_size`, concatenating the per-batch results. -/
def analyzeBatch (search : Question → List String)
    (llm : List Question → Except String (List Parsed))
    (batch_size : Nat) (questions : List Question) (sequence : Nat) :
    List AResult :=
  (chunksOf batch_size questions).flatMap
    (fun b => processSingleBatch search llm sequence b)

/-- `_filter_triggered_followups`: keep a followup without a (truthy)
`source_question`; otherwise require a phase-1 result for the source and
an upper-cased trigger that equals the source result's status string or
is empty. -/
def filterTriggeredFollowups (followup_questions : List Question)
    (source_results : String → Option AResult) : List Question :=
  followup_questions.filter fun q =>
    match q.sourceQuestion with
    | none => true
    | some sq =>
      if sq = "" then true
      else
        match source_results sq with
        | none => false
        | some r =>
          decide (pyUpper q.sourceTrigger = r.status.value ∨
                  pyUpper q.sourceTrigger = "")

/-- `analyze`: phase 1 over the source/independent questions, then the
trigger-filtered followups as phase 2, results concatenated. -/
def analyze (search : Question → List String)
    (llm : List Question → Except String (List Parsed))
    (batch_size : Nat) (questions : List Question) : List AResult :=
  let seq1_questions := questions.filter (fun q => !(q.questionType == "followup"))
  let seq2_questions := questions.filter (fun q => q.questionType == "followup")
  let seq1_results := analyzeBatch search llm batch_size seq1_questions 1
  if seq2_questions.isEmpty then seq1_results
  else
    let seq1_result_map := fun qid =>
      lastAssoc (seq1_results.map fun r => (r.question_id, r)) qid
    let triggered := filterTriggeredFollowups seq2_questions seq1_result_map
    if triggered.isEmpty then seq1_results
    else seq1_results ++ analyzeBatch search llm batch_size triggered 2

/-! ## Aggregation

`aggregate_results` (the per-standard breakdown and the two-decimal
display rounding of `avg_confidence` carry no claim and are omitted).
The source computes `round(compliant / assessed * 100)` in IEEE-754
binary64 arithmetic: the integer division result and the product are
each correctly rounded doubles, and `round` then rounds the double half
to even.  Every finite double is a rational, so the float arithmetic is
embedded exactly: `fl` below rounds an exact rational to the nearest
binary64 value (the quantities rounded here all lie in `[0, 100]`, far
from the overflow range, which is therefore not modelled). -/

/-- Python `round()` on an exact value: round half to even. -/
def roundHalfEven (q : ℚ) : ℤ :=
  if q - ⌊q⌋ < 1/2 then ⌊q⌋
  else if 1/2 < q - ⌊q⌋ then ⌊q⌋ + 1
  else if ⌊q⌋ % 2 = 0 then ⌊q⌋ else ⌊q⌋ + 1

/-- Round `q` to an integer multiple of `2^s`, half to even. -/
def roundScaled (s : ℤ) (q : ℚ) : ℚ :=
  (roundHalfEven (q * (2 : ℚ)^(-s)) : ℚ) * (2 : ℚ)^s

/-- The nearest IEEE-754 binary64 value to a positive rational `q`
(round to nearest, ties to even): normal numbers live on the grid
`2^(e-52)` for `e = ⌊log₂ q⌋`, subnormal ones on the fixed grid
`2^(-1074)`. -/
def flPos (q : ℚ) : ℚ :=
  if Int.log 2 q < -1022 then roundScaled (-1074) q
  else roundScaled (Int.log 2 q - 52) q

/-- The nearest IEEE-754 binary64 value to a rational. -/
def fl (q : ℚ) : ℚ :=
  if q = 0 then 0
  else if 0 < q then flPos q
  else -flPos (-q)

structure Aggregate where
  total : Nat
  compliant : Nat
  non_compliant : Nat
  not_applicable : Nat
  errors : Nat
  compliance_score : ℤ
deriving DecidableEq, Repr

def aggregate_results (results : List AResult) : Aggregate :=
  let total := results.length
  let compliant := results.countP (fun r => r.status == .compliant)
  let non_compliant := results.countP (fun r => r.status == .nonCompliant)
  let na := results.countP (fun r => r.status == .notApplicable)
  let errors := results.countP (fun r => r.status == .error)
  let assessed := compliant + non_compliant
  let score : ℤ :=
    if assessed > 0 then
      roundHalfEven (fl (fl ((compliant : ℚ) / assessed) * 100))
    else 0
  { total := total, compliant := compliant, non_compliant := non_compliant,
    not_applicable := na, errors := errors, compliance_score := score }

/-! ## Cache keying

`ComplianceOrchestrator._compute_questions_hash` builds
`key = "|".join(sorted(question_ids))` and returns the SHA-256 hex digest
of `key`.  The digest is a fixed deterministic function of `key`, so
equality of hashes reduces to equality of this key; the SHA-256
compression itself is not re-implemented.  Python's `sorted` on strings
is the unique non-decreasing (code-point lexicographic) reordering, which
insertion sort also produces. -/

def questionsHashKey (question_ids : List String) : String :=
  "|".intercalate (question_ids.insertionSort (· ≤ ·))

/-! ## Follow-up trigger filtering (C3) -/

/-- **C3.** Phase-2 follow-up filtering: a followup that declares no
(truthy) `source_question` is always included; one that declares a
source is included exactly when a phase-1 result for that source exists
and the followup's upper-cased declared `source_trigger` equals that
result's status string or is unspecified (empty, matching
unconditionally).  In particular a followup whose trigger differs from
the source's status, or whose source has no phase-1 result, is
excluded. -/
theorem filter_triggered_followups_spec (fs : List Question)
    (m : String → Option AResult) (q : Question) :
    ((q.sourceQuestion = none ∨ q.sourceQuestion = some "") →
      (q ∈ filterTriggeredFollowups fs m ↔ q ∈ fs)) ∧
    (∀ sq, q.sourceQuestion = some sq → sq ≠ "" →
      (q ∈ filterTriggeredFollowups fs m ↔
        q ∈ fs ∧ ∃ r, m sq = some r ∧
          (pyUpper q.sourceTrigger = r.status.value ∨
           pyUpper q.sourceTrigger = ""))) := by
  constructor
  · intro hsq
    unfold filterTriggeredFollowups
    rw [List.mem_filter]
    rcases hsq with h | h <;> simp [h]
  · intro sq hsq hne
    unfold filterTriggeredFollowups
    rw [List.mem_filter]
    cases hm : m sq with
    | none => simp [hsq, hne, hm]
    | some r => simp [hsq, hne, hm]

/-- Witness for C3 at concrete data: a followup triggered on `YES` whose
source result has status `YES` is included; with the lookup empty it is
excluded (second component, no matching result). -/
theorem filter_triggered_followups_spec_witness :
    (⟨"f1", "IAS 1", "", "", "followup", some "s1", "YES", "full"⟩ : Question) ∈
      filterTriggeredFollowups
        [⟨"f1", "IAS 1", "", "", "followup", some "s1", "YES", "full"⟩]
        (fun qid => if qid = "s1" then
          some (errorResult ⟨"s1", "IAS 1", "", "", "source", none, "", "full"⟩ 1 "x")
          else none) ↔
    (⟨"f1", "IAS 1", "", "", "followup", some "s1", "YES", "full"⟩ : Question) ∈
      [(⟨"f1", "IAS 1", "", "", "followup", some "s1", "YES", "full"⟩ : Question)] ∧
    ∃ r, (fun qid => if qid = "s1" then
          some (errorResult ⟨"s1", "IAS 1", "", "", "source", none, "", "full"⟩ 1 "x")
          else none) "s1" = some r ∧
        (pyUpper "YES" = r.status.value ∨ pyUpper "YES" = "") :=
  (filter_triggered_followups_spec
    [⟨"f1", "IAS 1", "", "", "followup", some "s1", "YES", "full"⟩]
    (fun qid => if qid = "s1" then
      some (errorResult ⟨"s1", "IAS 1", "", "", "source", none, "", "full"⟩ 1 "x")
      else none)
    ⟨"f1", "IAS 1", "", "", "followup", some "s1", "YES", "full"⟩).2
    "s1" rfl (by decide)

/-! ## Score rounding and aggregation (C5) -/

theorem roundHalfEven_nonneg {q : ℚ} (h : 0 ≤ q) : 0 ≤ roundHalfEven q := by
  unfold roundHalfEven
  have hf : (0 : ℤ) ≤ ⌊q⌋ := Int.le_floor.mpr (by exact_mod_cast h)
  split_ifs <;> omega

theorem roundHalfEven_le {q : ℚ} {n : ℤ} (h : q ≤ n) : roundHalfEven q ≤ n := by
  unfold roundHalfEven
  have hfl : ⌊q⌋ ≤ n := by
    have := Int.floor_le_floor h
    rwa [Int.floor_intCast] at this
  have hfq : (⌊q⌋ : ℚ) ≤ q := Int.floor_le q
  split_ifs with h1 h2 h3
  · exact hfl
  · have hlt : (⌊q⌋ : ℚ) < (n : ℚ) := by linarith
    have : ⌊q⌋ < n := by exact_mod_cast hlt
    omega
  · have heq : q - ⌊q⌋ = 1/2 := le_antisymm (not_lt.mp h2) (not_lt.mp h1)
    have hlt : (⌊q⌋ : ℚ) < (n : ℚ) := by linarith
    have : ⌊q⌋ < n := by exact_mod_cast hlt
    omega
  · have heq : q - ⌊q⌋ = 1/2 := le_antisymm (not_lt.mp h2) (not_lt.mp h1)
    have hlt : (⌊q⌋ : ℚ) < (n : ℚ) := by linarith
    have : ⌊q⌋ < n := by exact_mod_cast hlt
    omega

theorem roundScaled_nonneg {q : ℚ} {s : ℤ} (h : 0 ≤ q) :
    0 ≤ roundScaled s q := by
  unfold roundScaled
  have h1 : (0 : ℤ) ≤ roundHalfEven (q * (2 : ℚ)^(-s)) :=
    roundHalfEven_nonneg (by positivity)
  apply mul_nonneg (by exact_mod_cast h1) (by positivity)

theorem roundScaled_le_int {q : ℚ} {n s : ℤ} (hs : s ≤ 0) (hqn : q ≤ (n : ℚ)) :
    roundScaled s q ≤ (n : ℚ) := by
  have hpow : ((2 : ℚ)^((-s).toNat) : ℚ) = (2 : ℚ)^((-s) : ℤ) := by
    rw [← zpow_natCast]
    congr 1
    omega
  have h2 : ((n * 2^(-s).toNat : ℤ) : ℚ) * (2 : ℚ)^s = (n : ℚ) := by
    push_cast
    rw [mul_assoc, hpow, ← zpow_add₀ (by norm_num : (2 : ℚ) ≠ 0)]
    simp
  have h2s : (0 : ℚ) < (2 : ℚ)^s := by positivity
  have h2s2 : (0 : ℚ) < (2 : ℚ)^(-s) := by positivity
  have hcancel : (n : ℚ) * (2 : ℚ)^(-s) = ((n * 2^(-s).toNat : ℤ) : ℚ) := by
    push_cast
    rw [hpow]
  have hq : q * (2 : ℚ)^(-s) ≤ ((n * 2^(-s).toNat : ℤ) : ℚ) := by
    calc q * (2 : ℚ)^(-s) ≤ (n : ℚ) * (2 : ℚ)^(-s) :=
          mul_le_mul_of_nonneg_right hqn h2s2.le
      _ = ((n * 2^(-s).toNat : ℤ) : ℚ) := hcancel
  have hr := roundHalfEven_le hq
  unfold roundScaled
  calc (roundHalfEven (q * (2 : ℚ)^(-s)) : ℚ) * (2 : ℚ)^s
      ≤ ((n * 2^(-s).toNat : ℤ) : ℚ) * (2 : ℚ)^s :=
        mul_le_mul_of_nonneg_right (by exact_mod_cast hr) h2s.le
    _ = (n : ℚ) := h2

theorem fl_nonneg {q : ℚ} (h : 0 ≤ q) : 0 ≤ fl q := by
  unfold fl
  split_ifs with hz hp
  · exact le_rfl
  · unfold flPos
    split_ifs <;> exact roundScaled_nonneg (le_of_lt hp)
  · exact absurd (lt_of_le_of_ne h (Ne.symm hz)) hp

theorem fl_le_int {q : ℚ} {n : ℤ} (h0 : 0 ≤ q) (hqn : q ≤ (n : ℚ))
    (hn52 : n ≤ 2^52) : fl q ≤ (n : ℚ) := by
  unfold fl
  split_ifs with hz hp
  · subst hz; exact hqn
  · unfold flPos
    have hq53 : q < ((2 : ℕ) : ℚ)^(53 : ℤ) := by
      calc q ≤ (n : ℚ) := hqn
        _ ≤ ((2^52 : ℤ) : ℚ) := by exact_mod_cast hn52
        _ < _ := by push_cast; norm_num
    have hlog : Int.log 2 q < 53 := (Int.lt_zpow_iff_log_lt one_lt_two hp).mp hq53
    split_ifs with hsub
    · exact roundScaled_le_int (by norm_num) hqn
    · exact roundScaled_le_int (by omega) hqn
  · exact absurd (lt_of_le_of_ne h0 (Ne.symm hz)) hp

/-- **C5.** The aggregate compliance score equals
`round(compliant / (compliant + non_compliant) * 100)` computed exactly
as the source does — both the integer division result and the product
are correctly rounded binary64 values, then rounded half to even — and
is `0` when `compliant + non_compliant = 0`; not-applicable and error
results are excluded from that denominator but counted in their own
fields; and the score is an integer in `[0, 100]`. -/
theorem aggregate_results_score_spec (results : List AResult) :
    ((aggregate_results results).compliance_score =
      if (aggregate_results results).compliant +
          (aggregate_results results).non_compliant = 0 then 0
      else roundHalfEven (fl (fl
        (((aggregate_results results).compliant : ℚ) /
          (((aggregate_results results).compliant : ℚ) +
           ((aggregate_results results).non_compliant : ℚ))) * 100))) ∧
    0 ≤ (aggregate_results results).compliance_score ∧
    (aggregate_results results).compliance_score ≤ 100 ∧
    (aggregate_results results).not_applicable =
      results.countP (fun r => r.status == CStatus.notApplicable) ∧
    (aggregate_results results).errors =
      results.countP (fun r => r.status == CStatus.error) := by
  unfold aggregate_results
  set c := results.countP (fun r => r.status == CStatus.compliant) with hc
  set n := results.countP (fun r => r.status == CStatus.nonCompliant) with hn
  dsimp only
  by_cases h0 : c + n = 0
  · simp [h0]
  · have hpos : 0 < c + n := Nat.pos_of_ne_zero h0
    have hcast : ((c + n : Nat) : ℚ) = (c : ℚ) + (n : ℚ) := by push_cast; ring
    have hdpos : (0 : ℚ) < (c : ℚ) + (n : ℚ) := by
      rw [← hcast]; exact_mod_cast hpos
    have hq0 : 0 ≤ (c : ℚ) / ((c : ℚ) + (n : ℚ)) := by positivity
    have hq1 : (c : ℚ) / ((c : ℚ) + (n : ℚ)) ≤ 1 := by
      rw [div_le_one hdpos]
      have hn0 : (0 : ℚ) ≤ (n : ℚ) := by positivity
      linarith
    have hx10 : 0 ≤ fl ((c : ℚ) / ((c : ℚ) + (n : ℚ))) := fl_nonneg hq0
    have hx11 : fl ((c : ℚ) / ((c : ℚ) + (n : ℚ))) ≤ 1 := by
      have := fl_le_int (n := 1) hq0 (by exact_mod_cast hq1) (by norm_num)
      simpa using this
    have hx20 : 0 ≤ fl ((c : ℚ) / ((c : ℚ) + (n : ℚ))) * 100 := by positivity
    have hx21 : fl ((c : ℚ) / ((c : ℚ) + (n : ℚ))) * 100 ≤ ((100 : ℤ) : ℚ) := by
      push_cast
      nlinarith
    have hx30 : 0 ≤ fl (fl ((c : ℚ) / ((c : ℚ) + (n : ℚ))) * 100) :=
      fl_nonneg hx20
    have hx31 : fl (fl ((c : ℚ) / ((c : ℚ) + (n : ℚ))) * 100) ≤ ((100 : ℤ) : ℚ) :=
      fl_le_int hx20 hx21 (by norm_num)
    refine ⟨?_, ?_, ?_, rfl, rfl⟩
    · rw [if_pos hpos, if_neg h0, hcast]
    · rw [if_pos hpos, hcast]
      exact roundHalfEven_nonneg hx30
    · rw [if_pos hpos, hcast]
      exact roundHalfEven_le hx31

/-! ## Cache key determinism (C7) -/

/-- **C7.** The questions-hash key is determined by the set of selected
question identifiers alone: two duplicate-free selections containing the
same identifiers (in any order) produce the same joined sorted key, and
hence the same SHA-256 cache-key component. -/
theorem questions_hash_key_set_invariant (l₁ l₂ : List String)
    (h₁ : l₁.Nodup) (h₂ : l₂.Nodup) (h : ∀ x, x ∈ l₁ ↔ x ∈ l₂) :
    questionsHashKey l₁ = questionsHashKey l₂ := by
  unfold questionsHashKey
  congr 1
  have hperm : List.Perm (List.insertionSort (· ≤ ·) l₁)
      (List.insertionSort (· ≤ ·) l₂) :=
    ((l₁.perm_insertionSort _).trans
      ((List.perm_ext_iff_of_nodup h₁ h₂).mpr h)).trans
      (l₂.perm_insertionSort _).symm
  exact List.eq_of_perm_of_sorted hperm
    (List.sorted_insertionSort _ _) (List.sorted_insertionSort _ _)

/-- Witness for C7: the selections `["q2", "q1"]` and `["q1", "q2"]`
yield the same key. -/
theorem questions_hash_key_set_invariant_witness :
    questionsHashKey ["q2", "q1"] = questionsHashKey ["q1", "q2"] :=
  questions_hash_key_set_invariant ["q2", "q1"] ["q1", "q2"]
    (by decide) (by decide) (by intro x; constructor <;> (intro hx; simp at hx ⊢; tauto))

/-! ## Batch processing facts (C1, C8, C10) -/

theorem processSingleBatch_ok_length (search : Question → List String)
    (llm : List Question → Except String (List Parsed)) (sequence : Nat)
    (qs : List Question) (pl : List Parsed) (hok : llm qs = .ok pl) :
    (processSingleBatch search llm sequence qs).length = qs.length := by
  unfold processSingleBatch
  rw [hok]
  exact List.length_map _ _

theorem processSingleBatch_ok_get? (search : Question → List String)
    (llm : List Question → Except String (List Parsed)) (sequence : Nat)
    (qs : List Question) (pl : List Parsed) (hok : llm qs = .ok pl)
    (i : Nat) (q : Question) (hq : qs[i]? = some q) :
    (processSingleBatch search llm sequence qs)[i]? =
      some (resultFromValidated q
        (match lastAssoc (pl.map fun p => (p.question_id, p.rdict)) q.id with
         | some parsed => validate_result parsed (contextFlag search qs q.id)
         | none => placeholderDict)
        (contextTexts search qs q.id) sequence) := by
  unfold processSingleBatch
  rw [hok]
  show (List.map _ qs)[i]? = _
  rw [List.getElem?_map, hq]
  rfl

/-- **C1.** In a batch whose LLM call succeeded, every question whose
recorded context flag is `false` (zero retrieved snippets) yields a
result with status `N/A` and confidence at most `0.5`, whatever status
and confidence the parsed model output carried — including the case
where the model returned no block at all. -/
theorem no_context_forces_na (search : Question → List String)
    (llm : List Question → Except String (List Parsed)) (sequence : Nat)
    (qs : List Question) (pl : List Parsed) (hok : llm qs = .ok pl)
    (i : Nat) (q : Question) (hq : qs[i]? = some q)
    (hctx : contextFlag search qs q.id = false) :
    ∃ r, (processSingleBatch search llm sequence qs)[i]? = some r ∧
      r.status = CStatus.notApplicable ∧ r.confidence ≤ 1/2 := by
  have hval := processSingleBatch_ok_get? search llm sequence qs pl hok i q hq
  cases hp : lastAssoc (pl.map fun p => (p.question_id, p.rdict)) q.id with
  | none =>
    rw [hp] at hval
    refine ⟨_, hval, ?_, ?_⟩
    · rfl
    · show placeholderDict.confidence ≤ 1/2
      show (3 : ℚ)/10 ≤ 1/2
      norm_num
  | some parsed =>
    rw [hp, hctx] at hval
    have h6 := validate_result_no_context parsed
    refine ⟨_, hval, ?_, ?_⟩
    · show statusOfString (validate_result parsed false).status =
        CStatus.notApplicable
      rw [h6.1]
      rfl
    · exact h6.2

/-- Witness for C1: one question, retrieval returns no snippets, the
model returns no block; the produced result is `N/A` with confidence
`0.3 ≤ 0.5`. -/
theorem no_context_forces_na_witness :
    ∃ r, (processSingleBatch (fun _ => []) (fun _ => .ok []) 1
        [⟨"q1", "IAS 1", "r", "text", "source", none, "", "full"⟩])[0]? = some r ∧
      r.status = CStatus.notApplicable ∧ r.confidence ≤ 1/2 :=
  no_context_forces_na (fun _ => []) (fun _ => .ok []) 1
    [⟨"q1", "IAS 1", "r", "text", "source", none, "", "full"⟩] []
    rfl 0 ⟨"q1", "IAS 1", "r", "text", "source", none, "", "full"⟩
    rfl (by decide)

theorem processSingleBatch_error (search : Question → List String)
    (llm : List Question → Except String (List Parsed)) (sequence : Nat)
    (b : List Question) (e : String) (herr : llm b = .error e) :
    processSingleBatch search llm sequence b =
      b.map fun q => errorResult q sequence e := by
  unfold processSingleBatch
  rw [herr]

/-- **C8.** When the LLM call for one batch raises, every question of
that batch receives a result with status `ERROR` carrying the raised
error message, while the surrounding run still processes every other
batch: the full result list is the concatenation of the other batches'
results around the failed batch's `ERROR` results. -/
theorem batch_error_containment (search : Question → List String)
    (llm : List Question → Except String (List Parsed))
    (batch_size sequence : Nat) (qs : List Question)
    (pre post : List (List Question)) (b : List Question) (e : String)
    (hchunks : chunksOf batch_size qs = pre ++ b :: post)
    (herr : llm b = .error e) :
    analyzeBatch search llm batch_size qs sequence =
      pre.flatMap (processSingleBatch search llm sequence) ++
      (b.map fun q => errorResult q sequence e) ++
      post.flatMap (processSingleBatch search llm sequence) ∧
    ∀ q ∈ b, (errorResult q sequence e).status = CStatus.error ∧
      (errorResult q sequence e).error = some e := by
  refine ⟨?_, fun q _ => ⟨rfl, rfl⟩⟩
  unfold analyzeBatch
  rw [hchunks, List.flatMap_append, List.flatMap_cons,
    processSingleBatch_error search llm sequence b e herr, List.append_assoc]

/-- Witness for C8: batch size 1 over two questions; the LLM call fails
on the first batch and the second batch is still processed. -/
theorem batch_error_containment_witness :
    analyzeBatch (fun _ => [])
      (fun batch => if batch = [⟨"a", "IAS 1", "", "", "source", none, "", "full"⟩]
        then .error "boom" else .ok [])
      1 [⟨"a", "IAS 1", "", "", "source", none, "", "full"⟩,
         ⟨"b", "IAS 1", "", "", "source", none, "", "full"⟩] 1 =
      [].flatMap (processSingleBatch (fun _ => [])
        (fun batch => if batch = [⟨"a", "IAS 1", "", "", "source", none, "", "full"⟩]
          then .error "boom" else .ok []) 1) ++
      ([⟨"a", "IAS 1", "", "", "source", none, "", "full"⟩].map
        fun q => errorResult q 1 "boom") ++
      [[⟨"b", "IAS 1", "", "", "source", none, "", "full"⟩]].flatMap
        (processSingleBatch (fun _ => [])
          (fun batch => if batch = [⟨"a", "IAS 1", "", "", "source", none, "", "full"⟩]
            then .error "boom" else .ok []) 1) ∧
    ∀ q ∈ [(⟨"a", "IAS 1", "", "", "source", none, "", "full"⟩ : Question)],
      (errorResult q 1 "boom").status = CStatus.error ∧
      (errorResult q 1 "boom").error = some "boom" :=
  batch_error_containment (fun _ => [])
    (fun batch => if batch = [⟨"a", "IAS 1", "", "", "source", none, "", "full"⟩]
      then .error "boom" else .ok [])
    1 1
    [⟨"a", "IAS 1", "", "", "source", none, "", "full"⟩,
     ⟨"b", "IAS 1", "", "", "source", none, "", "full"⟩]
    [] [[⟨"b", "IAS 1", "", "", "source", none, "", "full"⟩]]
    [⟨"a", "IAS 1", "", "", "source", none, "", "full"⟩] "boom"
    rfl rfl

theorem chunksOfFuel_flatten {α : Type} (bs : Nat) (hbs : 0 < bs) :
    ∀ (fuel : Nat) (l : List α), l.length ≤ fuel →
      (chunksOfFuel bs fuel l).flatMap id = l := by
  intro fuel
  induction fuel with
  | zero =>
    intro l hl
    cases l with
    | nil => rfl
    | cons x xs => simp at hl
  | succ fuel ih =>
    intro l hl
    cases l with
    | nil => rfl
    | cons x xs =>
      show (List.take bs (x :: xs) ::
        chunksOfFuel bs fuel (List.drop bs (x :: xs))).flatMap id = x :: xs
      rw [List.flatMap_cons, ih (List.drop bs (x :: xs)) ?hlen]
      · exact List.take_append_drop bs (x :: xs)
      case hlen =>
        rw [List.length_drop, List.length_cons]
        simp only [List.length_cons] at hl
        omega

theorem chunksOf_flatten {α : Type} (bs : Nat) (hbs : 0 < bs) (l : List α) :
    (chunksOf bs l).flatMap id = l := by
  unfold chunksOf
  rw [if_neg (Nat.pos_iff_ne_zero.mp hbs)]
  exact chunksOfFuel_flatten bs hbs l.length l le_rfl

theorem processSingleBatch_map_qid (search : Question → List String)
    (llm : List Question → Except String (List Parsed)) (sequence : Nat)
    (b : List Question) :
    (processSingleBatch search llm sequence b).map (fun r => r.question_id) =
      b.map (fun q => q.id) := by
  unfold processSingleBatch
  cases llm b with
  | error e => rw [List.map_map]; rfl
  | ok pl => rw [List.map_map]; rfl

theorem processSingleBatch_map_seq (search : Question → List String)
    (llm : List Question → Except String (List Parsed)) (sequence : Nat)
    (b : List Question) :
    (processSingleBatch search llm sequence b).map (fun r => r.sequence) =
      b.map (fun _ => sequence) := by
  unfold processSingleBatch
  cases llm b with
  | error e => rw [List.map_map]; rfl
  | ok pl => rw [List.map_map]; rfl

theorem analyzeBatch_map_qid (search : Question → List String)
    (llm : List Question → Except String (List Parsed))
    (bs : Nat) (qs : List Question) (sequence : Nat) (hbs : 0 < bs) :
    (analyzeBatch search llm bs qs sequence).map (fun r => r.question_id) =
      qs.map (fun q => q.id) := by
  unfold analyzeBatch
  rw [List.map_flatMap]
  have h1 : ∀ (L : List (List Question)),
      L.flatMap (fun b =>
        (processSingleBatch search llm sequence b).map (fun r => r.question_id)) =
      (L.flatMap id).map (fun q => q.id) := by
    intro L
    induction L with
    | nil => rfl
    | cons b L ih =>
      rw [List.flatMap_cons, List.flatMap_cons, List.map_append, ih,
        processSingleBatch_map_qid]
      rfl
  rw [h1, chunksOf_flatten bs hbs qs]

theorem analyzeBatch_map_seq (search : Question → List String)
    (llm : List Question → Except String (List Parsed))
    (bs : Nat) (qs : List Question) (sequence : Nat) (hbs : 0 < bs) :
    (analyzeBatch search llm bs qs sequence).map (fun r => r.sequence) =
      qs.map (fun _ => sequence) := by
  unfold analyzeBatch
  rw [List.map_flatMap]
  have h1 : ∀ (L : List (List Question)),
      L.flatMap (fun b =>
        (processSingleBatch search llm sequence b).map (fun r => r.sequence)) =
      (L.flatMap id).map (fun _ => sequence) := by
    intro L
    induction L with
    | nil => rfl
    | cons b L ih =>
      rw [List.flatMap_cons, List.flatMap_cons, List.map_append, ih,
        processSingleBatch_map_seq]
      rfl
  rw [h1, chunksOf_flatten bs hbs qs]

/-- **C10.** `analyze` returns exactly one result per phase-1 question
followed by exactly one per triggered followup, in order, each carrying
that question's id and its phase's sequence number (1 then 2) — whatever
the LLM calls returned; and inside any successfully parsed batch, a
question absent from the parsed blocks still receives a result: the
low-confidence (0.3) `N/A` placeholder, so no question is dropped. -/
theorem analyze_output_shape (search : Question → List String)
    (llm : List Question → Except String (List Parsed))
    (batch_size : Nat) (qs : List Question) (hbs : 0 < batch_size) :
    ((analyze search llm batch_size qs).map (fun r => r.question_id) =
      (qs.filter (fun q => !(q.questionType == "followup"))).map (fun q => q.id) ++
      (filterTriggeredFollowups
        (qs.filter (fun q => q.questionType == "followup"))
        (fun qid => lastAssoc
          ((analyzeBatch search llm batch_size
            (qs.filter (fun q => !(q.questionType == "followup"))) 1).map
            (fun r => (r.question_id, r))) qid)).map (fun q => q.id)) ∧
    ((analyze search llm batch_size qs).map (fun r => r.sequence) =
      (qs.filter (fun q => !(q.questionType == "followup"))).map (fun _ => 1) ++
      (filterTriggeredFollowups
        (qs.filter (fun q => q.questionType == "followup"))
        (fun qid => lastAssoc
          ((analyzeBatch search llm batch_size
            (qs.filter (fun q => !(q.questionType == "followup"))) 1).map
            (fun r => (r.question_id, r))) qid)).map (fun _ => 2)) ∧
    (∀ (batch : List Question) (pl : List Parsed) (s i : Nat) (q : Question),
      llm batch = .ok pl → batch[i]? = some q →
      lastAssoc (pl.map fun p => (p.question_id, p.rdict)) q.id = none →
      ∃ r, (processSingleBatch search llm s batch)[i]? = some r ∧
        r.question_id = q.id ∧ r.status = CStatus.notApplicable ∧
        r.confidence = 3/10) := by
  refine ⟨?_, ?_, ?_⟩
  · unfold analyze
    by_cases h2 : (qs.filter (fun q => q.questionType == "followup")).isEmpty
    · rw [if_pos h2]
      rw [List.isEmpty_iff.mp h2]
      show _ = _ ++ (filterTriggeredFollowups [] _).map (fun q => q.id)
      rw [show ∀ m, filterTriggeredFollowups [] m = [] from fun _ => rfl]
      rw [List.map_nil, List.append_nil]
      exact analyzeBatch_map_qid search llm batch_size _ 1 hbs
    · rw [if_neg h2]
      by_cases h3 : (filterTriggeredFollowups
          (qs.filter (fun q => q.questionType == "followup"))
          (fun qid => lastAssoc
            ((analyzeBatch search llm batch_size
              (qs.filter (fun q => !(q.questionType == "followup"))) 1).map
              (fun r => (r.question_id, r))) qid)).isEmpty
      · rw [if_pos h3, List.isEmpty_iff.mp h3, List.map_nil, List.append_nil]
        exact analyzeBatch_map_qid search llm batch_size _ 1 hbs
      · rw [if_neg h3, List.map_append, analyzeBatch_map_qid search llm batch_size _ 1 hbs,
          analyzeBatch_map_qid search llm batch_size _ 2 hbs]
  · unfold analyze
    by_cases h2 : (qs.filter (fun q => q.questionType == "followup")).isEmpty
    · rw [if_pos h2]
      rw [List.isEmpty_iff.mp h2]
      show _ = _ ++ (filterTriggeredFollowups [] _).map (fun _ => 2)
      rw [show ∀ m, filterTriggeredFollowups [] m = [] from fun _ => rfl]
      rw [List.map_nil, List.append_nil]
      exact analyzeBatch_map_seq search llm batch_size _ 1 hbs
    · rw [if_neg h2]
      by_cases h3 : (filterTriggeredFollowups
          (qs.filter (fun q => q.questionType == "followup"))
          (fun qid => lastAssoc
            ((analyzeBatch search llm batch_size
              (qs.filter (fun q => !(q.questionType == "followup"))) 1).map
              (fun r => (r.question_id, r))) qid)).isEmpty
      · rw [if_pos h3, List.isEmpty_iff.mp h3, List.map_nil, List.append_nil]
        exact analyzeBatch_map_seq search llm batch_size _ 1 hbs
      · rw [if_neg h3, List.map_append, analyzeBatch_map_seq search llm batch_size _ 1 hbs,
          analyzeBatch_map_seq search llm batch_size _ 2 hbs]
  · intro batch pl s i q hok hq hnone
    have hval := processSingleBatch_ok_get? search llm s batch pl hok i q hq
    rw [hnone] at hval
    exact ⟨_, hval, rfl, rfl, rfl⟩

/-- Witness for C10 at a concrete engine configuration (default batch
size 5, retrieval returning nothing, a model returning no blocks). -/
theorem analyze_output_shape_witness :
    ((analyze (fun _ => []) (fun _ => .ok []) 5 []).map (fun r => r.question_id) =
      (([] : List Question).filter (fun q => !(q.questionType == "followup"))).map
        (fun q => q.id) ++
      (filterTriggeredFollowups
        (([] : List Question).filter (fun q => q.questionType == "followup"))
        (fun qid => lastAssoc
          ((analyzeBatch (fun _ => []) (fun _ => .ok []) 5
            (([] : List Question).filter (fun q => !(q.questionType == "followup"))) 1).map
            (fun r => (r.question_id, r))) qid)).map (fun q => q.id)) ∧
    ((analyze (fun _ => []) (fun _ => .ok []) 5 []).map (fun r => r.sequence) =
      (([] : List Question).filter (fun q => !(q.questionType == "followup"))).map
        (fun _ => 1) ++
      (filterTriggeredFollowups
        (([] : List Question).filter (fun q => q.questionType == "followup"))
        (fun qid => lastAssoc
          ((analyzeBatch (fun _ => []) (fun _ => .ok []) 5
            (([] : List Question).filter (fun q => !(q.questionType == "followup"))) 1).map
            (fun r => (r.question_id, r))) qid)).map (fun _ => 2)) ∧
    (∀ (batch : List Question) (pl : List Parsed) (s i : Nat) (q : Question),
      (fun _ => (.ok [] : Except String (List Parsed))) batch = .ok pl →
      batch[i]? = some q →
      lastAssoc (pl.map fun p => (p.question_id, p.rdict)) q.id = none →
      ∃ r, (processSingleBatch (fun _ => []) (fun _ => .ok []) s batch)[i]? = some r ∧
        r.question_id = q.id ∧ r.status = CStatus.notApplicable ∧
        r.confidence = 3/10) :=
  analyze_output_shape (fun _ => []) (fun _ => .ok []) 5 [] (by decide)

/-! ## Chunking service

From `chunking_service.py`.  Text is processed as `List Char` (Python
strings index by code point).  The two regexes are modelled exactly:

* `PARAGRAPH_BREAK = r"\n\s*\n"` — a greedy match at `i` exists when
  `cs[i] = '\n'` and the maximal whitespace run after `i` contains a
  further newline; the match ends just after the last such newline.
* `SENTENCE_END = r"(?<=[.!?])\s+(?=[A-Z])"` — a match at `i ≥ 1` exists
  when `cs[i-1] ∈ {'.','!','?'}`, `cs[i]` is whitespace, and the first
  non-whitespace character after the run is an ASCII capital; the match
  spans the whitespace run (only the maximal run can satisfy the
  look-ahead, so greediness needs no backtracking).

`finditer` scans left to right, non-overlapping, resuming after each
match; it is modelled with a fuel of `length + 1`, sufficient because
every step advances the position.  The `while` loop of `chunk_text` is
modelled with fuel `current.length + 1`; under the configuration
hypotheses carried by the theorems (satisfied by the default
4000/400/200 configuration) each iteration strictly shortens the buffer,
so the fuel is never exhausted and the model agrees with the source. -/

/-- Length of the maximal whitespace run at the head. -/
def countLeadingWs : List Char → Nat
  | [] => 0
  | c :: t => if pyIsSpace c then countLeadingWs t + 1 else 0

/-- Index of the last occurrence of `c`. -/
def lastIdxOf (c : Char) : List Char → Option Nat
  | [] => none
  | a :: t =>
    match lastIdxOf c t with
    | some j => some (j + 1)
    | none => if a = c then some 0 else none

/-- Index of the first occurrence of `c` (Python `str.find`). -/
def firstIdxOf (c : Char) : List Char → Option Nat
  | [] => none
  | a :: t => if a = c then some 0 else (firstIdxOf c t).map (· + 1)

/-- End position of a `PARAGRAPH_BREAK` match starting at `i`, if any. -/
def paraMatchEnd (cs : List Char) (i : Nat) : Option Nat :=
  match cs[i]? with
  | some c =>
    if c = '\n' then
      let run := (cs.drop (i + 1)).takeWhile pyIsSpace
      match lastIdxOf '\n' run with
      | some m => some (i + 1 + m + 1)
      | none => none
    else none
  | none => none

/-- End position of a `SENTENCE_END` match starting at `i`, if any. -/
def sentMatchEnd (cs : List Char) (i : Nat) : Option Nat :=
  if i = 0 then none
  else
    match cs[i - 1]? with
    | none => none
    | some pc =>
      match cs[i]? with
      | none => none
      | some c =>
        if (pc = '.' ∨ pc = '!' ∨ pc = '?') ∧ pyIsSpace c then
          let e := i + countLeadingWs (cs.drop i)
          match cs[e]? with
          | some u => if 'A' ≤ u ∧ u ≤ 'Z' then some e else none
          | none => none
        else none

/-- `re.finditer` scan from a position, with fuel. -/
def findAllFrom (matcher : List Char → Nat → Option Nat) (cs : List Char) :
    Nat → Nat → List (Nat × Nat)
  | 0, _ => []
  | fuel + 1, i =>
    if cs.length ≤ i then []
    else
      match matcher cs i with
      | some e => (i, e) :: findAllFrom matcher cs fuel (max e (i + 1))
      | none => findAllFrom matcher cs fuel (i + 1)

/-- All (start, end) matches of `matcher` in `cs`, left to right,
non-overlapping. -/
def findAll (matcher : List Char → Nat → Option Nat) (cs : List Char) :
    List (Nat × Nat) :=
  findAllFrom matcher cs (cs.length + 1) 0

/-- The segments of `cs` between the given match spans (`re.split`). -/
def splitSegs (cs : List Char) : Nat → List (Nat × Nat) → List (List Char)
  | pos, [] => [cs.drop pos]
  | pos, (s, e) :: rest => (cs.take s).drop pos :: splitSegs cs e rest

/-- `PARAGRAPH_BREAK.split(text)`. -/
def paraSplit (cs : List Char) : List (List Char) :=
  splitSegs cs 0 (findAll paraMatchEnd cs)

/-- `text.rfind(" ", a, b)`: last index of a space in `[a, b)`. -/
def rfindSpaceIn (cs : List Char) (a b : Nat) : Option Nat :=
  (lastIdxOf ' ' ((cs.take b).drop a)).map (a + ·)

/-- `ChunkingService._find_split_point(text, max_len)`. -/
def findSplitPoint (cs : List Char) (maxLen : Nat) : Nat :=
  if cs.length ≤ maxLen then cs.length
  else
    let searchStart := maxLen - 500
    let region := (cs.take maxLen).drop searchStart
    match (findAll paraMatchEnd region).getLast? with
    | some m => searchStart + m.2
    | none =>
      match (findAll sentMatchEnd region).getLast? with
      | some m => searchStart + m.2
      | none =>
        match rfindSpaceIn cs searchStart maxLen with
        | some idx => if searchStart < idx then idx + 1 else maxLen
        | none => maxLen

/-- `ChunkingService._get_overlap(text)`: the last `overlap` characters,
advanced to the first sentence boundary (else past the first space), then
stripped. -/
def getOverlap (overlap : Nat) (cs : List Char) : List Char :=
  if cs = [] ∨ overlap = 0 then []
  else
    let ot := cs.drop (cs.length - overlap)
    let ot2 :=
      match (findAll sentMatchEnd ot).head? with
      | some m => ot.drop m.1
      | none =>
        match firstIdxOf ' ' ot with
        | some si => if 0 < si then ot.drop (si + 1) else ot
        | none => ot
    pstripList ot2

/-- A produced chunk: content and character count, as `_create_chunk`
records them (`chunk_id`, `taxonomy`, `has_table`, `content_hash` and
`page_numbers` carry no frozen claim and are omitted). -/
structure Chunk where
  content : List Char
  char_count : Nat
deriving DecidableEq, Repr

def mkChunk (content : List Char) : Chunk := ⟨content, content.length⟩

structure ChunkCfg where
  chunk_size : Nat
  overlap : Nat
  min_chunk_size : Nat
deriving DecidableEq, Repr

/-- The constructor defaults `ChunkingService(4000, 400, 200)`. -/
def defaultChunkCfg : ChunkCfg := ⟨4000, 400, 200⟩

/-- The `while len(current_content) > chunk_size` loop of `chunk_text`,
with fuel. -/
def innerSplitFuel (cfg : ChunkCfg) : Nat → List Char → List Chunk × List Char
  | 0, cur => ([], cur)
  | fuel + 1, cur =>
    if cur.length ≤ cfg.chunk_size then ([], cur)
    else
      let splitAt := findSplitPoint cur cfg.chunk_size
      let ct := pstripList (cur.take splitAt)
      let remainder := pstripList (cur.drop splitAt)
      let ov := getOverlap cfg.overlap ct
      let next := if ov = [] then remainder else ov ++ ' ' :: remainder
      let res := innerSplitFuel cfg fuel next
      ((if cfg.min_chunk_size ≤ ct.length then [mkChunk ct] else []) ++ res.1, res.2)

/-- One iteration of the `for para in paragraphs` loop of `chunk_text`:
finalize the buffer when the paragraph would overflow it (seeding the
next buffer with the overlap tail), else append the paragraph; then run
the long-paragraph `while` loop. -/
def chunkStep (cfg : ChunkCfg) (st : List Chunk × List Char)
    (para : List Char) : List Chunk × List Char :=
  let fin :=
    if st.2 ≠ [] ∧ cfg.chunk_size < st.2.length + para.length + 2 then
      (st.1 ++ [mkChunk st.2],
        let ov := getOverlap cfg.overlap st.2
        if ov = [] then para else ov ++ '\n' :: '\n' :: para)
    else
      (st.1, if st.2 = [] then para else st.2 ++ '\n' :: '\n' :: para)
  let res := innerSplitFuel cfg (fin.2.length + 1) fin.2
  (fin.1 ++ res.1, res.2)

/-- `ChunkingService.chunk_text`. -/
def chunk_text (cfg : ChunkCfg) (text : String) : List Chunk :=
  if text.data = [] ∨ pstripList text.data = [] then []
  else
    let paragraphs :=
      ((paraSplit text.data).map pstripList).filter (fun p => !p.isEmpty)
    let st := paragraphs.foldl (chunkStep cfg) ([], [])
    if pstripList st.2 ≠ [] ∧ cfg.min_chunk_size ≤ (pstripList st.2).length then
      st.1 ++ [mkChunk (pstripList st.2)]
    else st.1

/-! ## Chunk coverage (C4) -/

theorem pstripList_eq_rdropWhile (cs : List Char) :
    pstripList cs = List.rdropWhile pyIsSpace (cs.dropWhile pyIsSpace) := rfl

theorem pstripList_idem (cs : List Char) :
    pstripList (pstripList cs) = pstripList cs := by
  rw [pstripList_eq_rdropWhile, pstripList_eq_rdropWhile]
  have h1 : (List.rdropWhile pyIsSpace (cs.dropWhile pyIsSpace)).dropWhile
      pyIsSpace = List.rdropWhile pyIsSpace (cs.dropWhile pyIsSpace) := by
    rw [List.dropWhile_eq_self_iff]
    intro hl
    have hpre : List.rdropWhile pyIsSpace (cs.dropWhile pyIsSpace) <+:
        cs.dropWhile pyIsSpace := List.rdropWhile_prefix _ _
    have hA0 : 0 < (cs.dropWhile pyIsSpace).length :=
      lt_of_lt_of_le hl hpre.length_le
    have hget := List.IsPrefix.getElem hpre hl
    rw [List.get_eq_getElem, hget]
    have := List.dropWhile_get_zero_not pyIsSpace cs hA0
    simpa [List.get_eq_getElem] using this
  rw [h1, List.rdropWhile_idempotent]

theorem lastIdxOf_lt {c : Char} :
    ∀ {l : List Char} {j : Nat}, lastIdxOf c l = some j → j < l.length := by
  intro l
  induction l with
  | nil => intro j h; simp [lastIdxOf] at h
  | cons a t ih =>
    intro j h
    unfold lastIdxOf at h
    cases ht : lastIdxOf c t with
    | some j2 =>
      rw [ht] at h
      simp only [Option.some.injEq] at h
      subst h
      exact Nat.succ_lt_succ (ih ht)
    | none =>
      rw [ht] at h
      split_ifs at h with hc
      simp only [Option.some.injEq] at h
      subst h
      simp

/-! ## Non-whitespace coverage -/

/-- The non-whitespace characters of a list, in order. -/
def NW (l : List Char) : List Char := l.filter (fun c => !pyIsSpace c)

theorem NW_append (l1 l2 : List Char) : NW (l1 ++ l2) = NW l1 ++ NW l2 :=
  List.filter_append _ _

theorem NW_takeWhile_ws (l : List Char) : NW (l.takeWhile pyIsSpace) = [] := by
  rw [NW, List.filter_eq_nil_iff]
  intro a ha
  simp [List.mem_takeWhile_imp ha]

theorem NW_dropWhile (l : List Char) : NW (l.dropWhile pyIsSpace) = NW l := by
  conv_rhs => rw [← List.takeWhile_append_dropWhile pyIsSpace l]
  rw [NW_append, NW_takeWhile_ws, List.nil_append]

theorem NW_reverse (l : List Char) : NW l.reverse = (NW l).reverse :=
  List.filter_reverse _ _

theorem NW_rdropWhile (l : List Char) :
    NW (List.rdropWhile pyIsSpace l) = NW l := by
  show NW (l.reverse.dropWhile pyIsSpace).reverse = NW l
  rw [NW_reverse, NW_dropWhile, NW_reverse, List.reverse_reverse]

theorem NW_strip (l : List Char) : NW (pstripList l) = NW l := by
  rw [pstripList_eq_rdropWhile, NW_rdropWhile, NW_dropWhile]

theorem NW_cons_ws {c : Char} (h : pyIsSpace c = true) (l : List Char) :
    NW (c :: l) = NW l := by
  simp [NW, List.filter_cons, h]

/-- A prefix lying inside the leading whitespace run has no
non-whitespace characters. -/
theorem NW_take_ws {l : List Char} {n : Nat}
    (h : n ≤ (l.takeWhile pyIsSpace).length) : NW (l.take n) = [] := by
  have hsplit : l.take n = (l.takeWhile pyIsSpace).take n := by
    conv_lhs => rw [← List.takeWhile_append_dropWhile pyIsSpace l]
    rw [List.take_append_eq_append_take, Nat.sub_eq_zero_of_le h, List.take_zero,
      List.append_nil]
  rw [hsplit, NW, List.filter_eq_nil_iff]
  intro a ha
  simp [List.mem_takeWhile_imp (List.mem_of_mem_take ha)]

theorem drop_decompose (cs : List Char) {a b : Nat} (h : a ≤ b) :
    cs.drop a = (cs.take b).drop a ++ cs.drop b := by
  have h2 : cs.drop b = (cs.drop a).drop (b - a) := by
    rw [List.drop_drop, Nat.add_sub_cancel' h]
  rw [h2, List.drop_take b a cs, List.take_append_drop]

/-- The spans `(s, e)` follow each other in order after `pos`, and each
covers only whitespace characters of `cs`. -/
def SpanChain (cs : List Char) : Nat → List (Nat × Nat) → Prop
  | _, [] => True
  | pos, (s, e) :: rest =>
    pos ≤ s ∧ s ≤ e ∧ NW ((cs.take e).drop s) = [] ∧ SpanChain cs e rest

theorem SpanChain_mono {cs : List Char} {spans : List (Nat × Nat)}
    {pos p : Nat} (hle : p ≤ pos) (h : SpanChain cs pos spans) :
    SpanChain cs p spans := by
  cases spans with
  | nil => trivial
  | cons q rest =>
    obtain ⟨s, e⟩ := q
    simp only [SpanChain] at h ⊢
    exact ⟨le_trans hle h.1, h.2.1, h.2.2.1, h.2.2.2⟩

theorem findAllFrom_chain {matcher : List Char → Nat → Option Nat}
    {cs : List Char}
    (hm : ∀ i e, matcher cs i = some e → i ≤ e ∧ NW ((cs.take e).drop i) = []) :
    ∀ fuel i, SpanChain cs i (findAllFrom matcher cs fuel i) := by
  intro fuel
  induction fuel with
  | zero => intro i; simp [findAllFrom, SpanChain]
  | succ fuel ih =>
    intro i
    unfold findAllFrom
    split_ifs with hlen
    · simp [SpanChain]
    · cases hmi : matcher cs i with
      | none => exact SpanChain_mono (Nat.le_succ i) (ih (i + 1))
      | some e =>
        simp only [SpanChain]
        exact ⟨le_refl i, (hm i e hmi).1, (hm i e hmi).2,
          SpanChain_mono (le_max_left e (i + 1)) (ih _)⟩

/-- Splitting at whitespace-only spans preserves the non-whitespace
characters, in order. -/
theorem splitSegs_NW (cs : List Char) :
    ∀ (spans : List (Nat × Nat)) (pos : Nat), SpanChain cs pos spans →
      NW (cs.drop pos) = ((splitSegs cs pos spans).map NW).flatten := by
  intro spans
  induction spans with
  | nil =>
    intro pos _
    simp [splitSegs]
  | cons q rest ih =>
    obtain ⟨s, e⟩ := q
    intro pos hchain
    simp only [SpanChain] at hchain
    obtain ⟨hps, hse, hws, hrest⟩ := hchain
    rw [splitSegs, List.map_cons, List.flatten_cons, ← ih e hrest,
      drop_decompose cs hps, NW_append, drop_decompose cs hse, NW_append, hws,
      List.nil_append]

/-- A paragraph-break match spans only whitespace. -/
theorem paraMatchEnd_ws {cs : List Char} {i e : Nat}
    (h : paraMatchEnd cs i = some e) :
    i ≤ e ∧ NW ((cs.take e).drop i) = [] := by
  unfold paraMatchEnd at h
  cases hg : cs[i]? with
  | none => rw [hg] at h; simp at h
  | some c =>
    rw [hg] at h
    dsimp only at h
    split_ifs at h with hc
    cases hm : lastIdxOf '\n' ((cs.drop (i + 1)).takeWhile pyIsSpace) with
    | none => rw [hm] at h; simp at h
    | some m =>
      rw [hm] at h
      simp only [Option.some.injEq] at h
      subst h
      have hmlt := lastIdxOf_lt hm
      have hi : i < cs.length := by
        rcases List.getElem?_eq_some.mp hg with ⟨hi, _⟩
        exact hi
      have hix : cs[i] = c := by
        rcases List.getElem?_eq_some.mp hg with ⟨_, hx⟩
        exact hx
      have hsp : pyIsSpace cs[i] = true := by
        rw [hix, hc]; decide
      have harith : i + 1 + m + 1 - i = m + 2 := by omega
      refine ⟨by omega, ?_⟩
      rw [List.drop_take (i + 1 + m + 1) i cs, harith,
        List.drop_eq_getElem_cons hi, List.take_succ_cons, NW_cons_ws hsp,
        NW_take_ws hmlt]

/-- Paragraph splitting preserves the non-whitespace characters. -/
theorem paraSplit_NW (cs : List Char) :
    NW cs = ((paraSplit cs).map NW).flatten := by
  have h := splitSegs_NW cs (findAll paraMatchEnd cs) 0
    (findAllFrom_chain (fun i e he => paraMatchEnd_ws he) _ 0)
  rw [List.drop_zero] at h
  exact h

theorem NW_flatten_filter (l : List (List Char)) :
    (((l.filter (fun p => !p.isEmpty)).map NW)).flatten = (l.map NW).flatten := by
  induction l with
  | nil => rfl
  | cons p rest ih =>
    by_cases hp : p.isEmpty
    · have hpe : p = [] := List.isEmpty_iff.mp hp
      subst hpe
      simpa [List.filter_cons, NW] using ih
    · simp [List.filter_cons, hp, ih]

/-- The stripped, non-empty paragraphs of `chunk_text` carry exactly the
non-whitespace characters of the text. -/
theorem paragraphs_NW (cs : List Char) :
    (((((paraSplit cs).map pstripList).filter (fun p => !p.isEmpty)).map NW)).flatten
      = NW cs := by
  rw [NW_flatten_filter, List.map_map]
  have hc : NW ∘ pstripList = NW := funext NW_strip
  rw [hc, ← paraSplit_NW]

/-- With a zero minimum chunk size, the long-paragraph loop keeps every
non-whitespace character in its emitted chunks or its remainder. -/
theorem innerSplit_coverage (cfg : ChunkCfg) (hmin : cfg.min_chunk_size = 0) :
    ∀ (fuel : Nat) (cur : List Char),
      List.Sublist (NW cur)
        ((((innerSplitFuel cfg fuel cur).1.map (fun c => NW c.content)).flatten)
          ++ NW (innerSplitFuel cfg fuel cur).2) := by
  intro fuel
  induction fuel with
  | zero =>
    intro cur
    simp [innerSplitFuel]
  | succ fuel ih =>
    intro cur
    by_cases hlen : cur.length ≤ cfg.chunk_size
    · show List.Sublist (NW cur)
        ((((innerSplitFuel cfg (fuel + 1) cur).1.map (fun c => NW c.content)).flatten)
          ++ NW (innerSplitFuel cfg (fuel + 1) cur).2)
      unfold innerSplitFuel
      rw [if_pos hlen]
      simp
    · show List.Sublist (NW cur)
        ((((innerSplitFuel cfg (fuel + 1) cur).1.map (fun c => NW c.content)).flatten)
          ++ NW (innerSplitFuel cfg (fuel + 1) cur).2)
      unfold innerSplitFuel
      rw [if_neg hlen]
      dsimp only
      rw [hmin]
      simp only [Nat.zero_le, if_true]
      generalize hnxt : (if getOverlap cfg.overlap
          (pstripList (cur.take (findSplitPoint cur cfg.chunk_size))) = []
        then pstripList (cur.drop (findSplitPoint cur cfg.chunk_size))
        else getOverlap cfg.overlap
            (pstripList (cur.take (findSplitPoint cur cfg.chunk_size))) ++
          ' ' :: pstripList (cur.drop (findSplitPoint cur cfg.chunk_size))) = nxt
      have hcur : NW cur =
          NW (pstripList (cur.take (findSplitPoint cur cfg.chunk_size))) ++
          NW (pstripList (cur.drop (findSplitPoint cur cfg.chunk_size))) := by
        rw [NW_strip, NW_strip, ← NW_append, List.take_append_drop]
      have hrem : List.Sublist
          (NW (pstripList (cur.drop (findSplitPoint cur cfg.chunk_size)))) (NW nxt) := by
        rw [← hnxt]
        split_ifs with hov
        · exact List.Sublist.refl _
        · rw [NW_append, NW_cons_ws (by decide)]
          exact List.sublist_append_right _ _
      have hih := ih nxt
      rw [List.map_append, List.flatten_append]
      have hsing : (([mkChunk (pstripList
            (cur.take (findSplitPoint cur cfg.chunk_size)))].map
          (fun c => NW c.content)).flatten) =
          NW (pstripList (cur.take (findSplitPoint cur cfg.chunk_size))) := by
        simp [mkChunk]
      rw [hsing, List.append_assoc, hcur]
      exact List.Sublist.append (List.Sublist.refl _) (hrem.trans hih)

theorem flatten_emit (l : List Chunk) (x : List Char) :
    (((l ++ [mkChunk x]).map (fun c => NW c.content)).flatten) =
      ((l.map (fun c => NW c.content)).flatten) ++ NW x := by
  simp [mkChunk]

/-- One paragraph iteration keeps all non-whitespace characters already
emitted or buffered, plus those of the paragraph, in order. -/
theorem chunkStep_coverage (cfg : ChunkCfg) (hmin : cfg.min_chunk_size = 0)
    (st : List Chunk × List Char) (para : List Char) :
    List.Sublist
      (((st.1.map (fun c => NW c.content)).flatten ++ NW st.2) ++ NW para)
      (((chunkStep cfg st para).1.map (fun c => NW c.content)).flatten
        ++ NW (chunkStep cfg st para).2) := by
  unfold chunkStep
  dsimp only
  generalize hF : (if st.2 ≠ [] ∧ cfg.chunk_size < st.2.length + para.length + 2 then
      (st.1 ++ [mkChunk st.2],
        if getOverlap cfg.overlap st.2 = [] then para
        else getOverlap cfg.overlap st.2 ++ '\n' :: '\n' :: para)
    else (st.1, if st.2 = [] then para else st.2 ++ '\n' :: '\n' :: para)) = F
  have hA : List.Sublist
      (((st.1.map (fun c => NW c.content)).flatten ++ NW st.2) ++ NW para)
      ((F.1.map (fun c => NW c.content)).flatten ++ NW F.2) := by
    rw [← hF]
    split_ifs with hcond hov hnil
    · dsimp only
      rw [flatten_emit]
    · dsimp only
      rw [flatten_emit, NW_append, NW_cons_ws (by decide), NW_cons_ws (by decide)]
      exact List.Sublist.append (List.Sublist.refl _)
        (List.sublist_append_right _ _)
    · dsimp only
      have hNWnil : NW ([] : List Char) = [] := rfl
      rw [hnil, hNWnil, List.append_nil]
    · dsimp only
      rw [NW_append, NW_cons_ws (by decide), NW_cons_ws (by decide),
        ← List.append_assoc]
  have hB := innerSplit_coverage cfg hmin (F.2.length + 1) F.2
  refine hA.trans ?_
  rw [List.map_append, List.flatten_append, List.append_assoc]
  exact List.Sublist.append (List.Sublist.refl _) hB

/-- Folding the paragraph loop keeps all non-whitespace characters of
the state and the remaining paragraphs, in order. -/
theorem chunkfold_coverage (cfg : ChunkCfg) (hmin : cfg.min_chunk_size = 0) :
    ∀ (paras : List (List Char)) (st : List Chunk × List Char),
      List.Sublist
        (((st.1.map (fun c => NW c.content)).flatten ++ NW st.2)
          ++ ((paras.map NW).flatten))
        (((paras.foldl (chunkStep cfg) st).1.map (fun c => NW c.content)).flatten
          ++ NW (paras.foldl (chunkStep cfg) st).2) := by
  intro paras
  induction paras with
  | nil =>
    intro st
    rw [List.foldl_nil, List.map_nil, List.flatten_nil, List.append_nil]
  | cons p rest ih =>
    intro st
    rw [List.foldl_cons, List.map_cons, List.flatten_cons, ← List.append_assoc]
    exact List.Sublist.trans
      (List.Sublist.append_right (chunkStep_coverage cfg hmin st p) _)
      (ih (chunkStep cfg st p))

/-- **C4 (amended).** With a zero minimum chunk size no content can be
dropped: every non-whitespace character of the input text appears, in
input order, in the concatenation of the produced chunks (whitespace may
be altered by stripping and re-joining, and overlap may duplicate
characters, so the statement is a sublist embedding of the
non-whitespace stream). -/
theorem chunk_text_coverage (cfg : ChunkCfg) (hmin : cfg.min_chunk_size = 0)
    (text : String) :
    List.Sublist (NW text.data)
      (((chunk_text cfg text).map (fun c => NW c.content)).flatten) := by
  unfold chunk_text
  by_cases h0 : text.data = [] ∨ pstripList text.data = []
  · rw [if_pos h0]
    have hnil : NW text.data = [] := by
      rcases h0 with h | h
      · rw [h]; rfl
      · rw [← NW_strip, h]; rfl
    rw [hnil]
    simp
  · rw [if_neg h0]
    dsimp only
    generalize hst : (((paraSplit text.data).map pstripList).filter
        (fun p => !p.isEmpty)).foldl (chunkStep cfg) ([], []) = st
    have hfold := chunkfold_coverage cfg hmin
      (((paraSplit text.data).map pstripList).filter (fun p => !p.isEmpty)) ([], [])
    rw [hst] at hfold
    have hfold2 : List.Sublist (NW text.data)
        ((st.1.map (fun c => NW c.content)).flatten ++ NW st.2) := by
      rw [← paragraphs_NW text.data]
      simpa using hfold
    split_ifs with hkeep
    · rw [flatten_emit, NW_strip]
      exact hfold2
    · have h2 : pstripList st.2 = [] := by
        by_contra hne
        exact hkeep ⟨hne, hmin ▸ Nat.zero_le _⟩
      have h3 : NW st.2 = [] := by rw [← NW_strip, h2]; rfl
      rw [h3, List.append_nil] at hfold2
      exact hfold2

/-- Witness for the amended C4 theorem at a concrete configuration and
text: with minimum chunk size 0 every non-whitespace character of the
two-paragraph text is covered, in order, by the produced chunks. -/
theorem chunk_text_coverage_witness :
    (⟨40, 10, 0⟩ : ChunkCfg).min_chunk_size = 0 ∧
    List.Sublist (NW (String.data "First paragraph here.\n\nSecond one."))
      (((chunk_text ⟨40, 10, 0⟩ "First paragraph here.\n\nSecond one.").map
        (fun c => NW c.content)).flatten) :=
  ⟨rfl, chunk_text_coverage ⟨40, 10, 0⟩ rfl "First paragraph here.\n\nSecond one."⟩

/-- **C4 (counterexample).** The five-character text `"hello"` strips to
a non-empty trailing fragment, yet `chunk_text` with the default
configuration (minimum chunk size 200) produces no chunk at all — the
entire text is dropped, so concatenating the chunks does not reconstruct
the input, and a non-empty-after-trimming trailing fragment is
discarded. -/
theorem chunk_text_drops_nonempty_trailing :
    chunk_text defaultChunkCfg "hello" = [] ∧ pstripList "hello".data ≠ [] := by
  constructor
  · rfl
  · decide

/-- A trailing fragment is kept only when its trimmed length reaches the
minimum chunk size: for a text whose paragraph pass yields a single
stripped paragraph `p` that fits in the chunk size, `chunk_text` returns
exactly `[p]` when `min_chunk_size ≤ |p|` and `[]` otherwise — so text
shorter than the minimum chunk size is dropped even when non-empty after
trimming. -/
theorem chunk_text_single_paragraph (cfg : ChunkCfg) (text : String)
    (p : List Char) (hne : text.data ≠ []) (hns : pstripList text.data ≠ [])
    (hp : ((paraSplit text.data).map pstripList).filter (fun q => !q.isEmpty) = [p])
    (hlen : p.length ≤ cfg.chunk_size) :
    chunk_text cfg text =
      if cfg.min_chunk_size ≤ p.length then [mkChunk p] else [] := by
  have hmem : p ∈ ((paraSplit text.data).map pstripList).filter
      (fun q => !q.isEmpty) := by
    rw [hp]; exact List.mem_singleton.mpr rfl
  have hpe : p.isEmpty = false := by
    have := (List.mem_filter.mp hmem).2
    simpa using this
  have hpne : p ≠ [] := by simpa [List.isEmpty_iff] using hpe
  have hps : pstripList p = p := by
    rcases List.mem_map.mp (List.mem_filter.mp hmem).1 with ⟨x, _, hx⟩
    rw [← hx, pstripList_idem]
  have hstep : chunkStep cfg ([], []) p = ([], p) := by
    unfold chunkStep
    rw [if_neg (by simp)]
    show ((([] : List Chunk), p).1 ++ (innerSplitFuel cfg (p.length + 1) p).1,
      (innerSplitFuel cfg (p.length + 1) p).2) = ([], p)
    have hinner : innerSplitFuel cfg (p.length + 1) p = ([], p) := by
      unfold innerSplitFuel
      rw [if_pos hlen]
    rw [hinner]
    rfl
  unfold chunk_text
  rw [if_neg (by push_neg; exact ⟨hne, hns⟩)]
  simp only [hp, List.foldl_cons, List.foldl_nil, hstep, hps]
  by_cases hmin : cfg.min_chunk_size ≤ p.length
  · rw [if_pos ⟨hpne, hmin⟩, if_pos hmin]
    rfl
  · rw [if_neg (by tauto), if_neg hmin]

/-- The kept/dropped dichotomy at a concrete input: with minimum chunk
size 3 the single-paragraph text `"hello"` is kept as one chunk. -/
theorem chunk_text_single_paragraph_witness :
    chunk_text ⟨4000, 400, 3⟩ "hello" =
      if (3 : Nat) ≤ "hello".data.length then [mkChunk "hello".data] else [] :=
  chunk_text_single_paragraph ⟨4000, 400, 3⟩ "hello" "hello".data
    (by decide) (by decide) (by decide) (by decide)

/-! ## Chunk size bound (C6) -/

theorem pstripList_length_le (l : List Char) :
    (pstripList l).length ≤ l.length := by
  unfold pstripList
  rw [List.length_reverse]
  calc ((l.dropWhile pyIsSpace).reverse.dropWhile pyIsSpace).length
      ≤ (l.dropWhile pyIsSpace).reverse.length :=
        (List.dropWhile_suffix _).length_le
    _ = (l.dropWhile pyIsSpace).length := List.length_reverse _
    _ ≤ l.length := (List.dropWhile_suffix _).length_le

theorem paraMatchEnd_bounds {cs : List Char} {i e : Nat}
    (h : paraMatchEnd cs i = some e) : 1 ≤ e ∧ e ≤ cs.length := by
  unfold paraMatchEnd at h
  cases hg : cs[i]? with
  | none => rw [hg] at h; simp at h
  | some c =>
    rw [hg] at h
    dsimp only at h
    split_ifs at h with hc
    cases hm : lastIdxOf '\n' ((cs.drop (i + 1)).takeWhile pyIsSpace) with
    | none => rw [hm] at h; simp at h
    | some m =>
      rw [hm] at h
      simp only [Option.some.injEq] at h
      subst h
      have hm2 := lastIdxOf_lt hm
      have h1 : ((cs.drop (i + 1)).takeWhile pyIsSpace).length ≤
          cs.length - (i + 1) := by
        calc ((cs.drop (i + 1)).takeWhile pyIsSpace).length
            ≤ (cs.drop (i + 1)).length := (List.takeWhile_prefix _).length_le
          _ = cs.length - (i + 1) := List.length_drop _ _
      have hi : i < cs.length := by
        rcases List.getElem?_eq_some.mp hg with ⟨hi, _⟩
        exact hi
      constructor <;> omega

theorem sentMatchEnd_bounds {cs : List Char} {i e : Nat}
    (h : sentMatchEnd cs i = some e) : 1 ≤ e ∧ e ≤ cs.length := by
  unfold sentMatchEnd at h
  split_ifs at h with h0
  cases hg1 : cs[i - 1]? with
  | none => rw [hg1] at h; simp at h
  | some pc =>
    rw [hg1] at h
    cases hg2 : cs[i]? with
    | none => rw [hg2] at h; simp at h
    | some c =>
      rw [hg2] at h
      dsimp only at h
      split_ifs at h with hcond
      cases hg3 : cs[i + countLeadingWs (cs.drop i)]? with
      | none => rw [hg3] at h; simp at h
      | some u =>
        rw [hg3] at h
        dsimp only at h
        split_ifs at h with hu
        simp only [Option.some.injEq] at h
        subst h
        rcases List.getElem?_eq_some.mp hg3 with ⟨he, _⟩
        constructor <;> omega

theorem findAllFrom_bounds {matcher : List Char → Nat → Option Nat}
    {cs : List Char}
    (hm : ∀ i e, matcher cs i = some e → 1 ≤ e ∧ e ≤ cs.length) :
    ∀ (fuel i : Nat) (p : Nat × Nat), p ∈ findAllFrom matcher cs fuel i →
      1 ≤ p.2 ∧ p.2 ≤ cs.length := by
  intro fuel
  induction fuel with
  | zero => intro i p h; simp [findAllFrom] at h
  | succ fuel ih =>
    intro i p h
    unfold findAllFrom at h
    split_ifs at h with hlen
    · simp at h
    · cases hmm : matcher cs i with
      | some e2 =>
        rw [hmm] at h
        rcases List.mem_cons.mp h with h | h
        · subst h
          exact hm i e2 hmm
        · exact ih _ _ h
      | none =>
        rw [hmm] at h
        exact ih _ _ h

theorem getLast?_mem {α : Type} {l : List α} {a : α} (h : l.getLast? = some a) :
    a ∈ l := by
  induction l with
  | nil => simp at h
  | cons x t ih =>
    cases t with
    | nil =>
      simp [List.getLast?] at h
      simp [h]
    | cons y u =>
      rw [List.getLast?_cons_cons] at h
      exact List.mem_cons_of_mem x (ih h)

theorem findSplitPoint_bounds {cs : List Char} {maxLen : Nat}
    (h : maxLen < cs.length) :
    maxLen - 499 ≤ findSplitPoint cs maxLen ∧ findSplitPoint cs maxLen ≤ maxLen := by
  unfold findSplitPoint
  rw [if_neg (by omega)]
  dsimp only
  have hreg : ((cs.take maxLen).drop (maxLen - 500)).length =
      maxLen - (maxLen - 500) := by
    rw [List.length_drop, List.length_take]
    omega
  cases hpb : (findAll paraMatchEnd ((cs.take maxLen).drop (maxLen - 500))).getLast? with
  | some m =>
    dsimp only
    obtain ⟨h1, h2⟩ := findAllFrom_bounds
      (fun i e he => paraMatchEnd_bounds he) _ _ _ (getLast?_mem hpb)
    rw [hreg] at h2
    constructor <;> omega
  | none =>
    dsimp only
    cases hsb : (findAll sentMatchEnd ((cs.take maxLen).drop (maxLen - 500))).getLast? with
    | some m =>
      dsimp only
      obtain ⟨h1, h2⟩ := findAllFrom_bounds
        (fun i e he => sentMatchEnd_bounds he) _ _ _ (getLast?_mem hsb)
      rw [hreg] at h2
      constructor <;> omega
    | none =>
      dsimp only
      cases hsp : rfindSpaceIn cs (maxLen - 500) maxLen with
      | some idx =>
        dsimp only
        have hidx : idx < maxLen ∧ maxLen - 500 ≤ idx := by
          unfold rfindSpaceIn at hsp
          rcases Option.map_eq_some'.mp hsp with ⟨j, hj, hadd⟩
          have hjl := lastIdxOf_lt hj
          rw [hreg] at hjl
          omega
        split_ifs with hgt
        · constructor <;> omega
        · constructor <;> omega
      | none =>
        dsimp only
        constructor <;> omega

theorem getOverlap_length_le (ov : Nat) (cs : List Char) :
    (getOverlap ov cs).length ≤ ov := by
  unfold getOverlap
  split_ifs with h
  · simp
  · dsimp only
    have hot : (cs.drop (cs.length - ov)).length ≤ ov := by
      rw [List.length_drop]; omega
    refine le_trans (pstripList_length_le _) (le_trans ?_ hot)
    cases hh : (findAll sentMatchEnd (cs.drop (cs.length - ov))).head? with
    | some m =>
      dsimp only
      rw [List.length_drop]
      exact Nat.sub_le _ _
    | none =>
      dsimp only
      cases hf : firstIdxOf ' ' (cs.drop (cs.length - ov)) with
      | some si =>
        dsimp only
        split_ifs
        · rw [List.length_drop]; exact Nat.sub_le _ _
        · exact le_rfl
      | none =>
        dsimp only
        exact le_rfl

theorem innerSplit_next_lt (cfg : ChunkCfg)
    (hcfg : cfg.overlap + 500 < cfg.chunk_size)
    (cur : List Char) (hbig : cfg.chunk_size < cur.length) :
    (if getOverlap cfg.overlap
        (pstripList (cur.take (findSplitPoint cur cfg.chunk_size))) = []
     then pstripList (cur.drop (findSplitPoint cur cfg.chunk_size))
     else getOverlap cfg.overlap
        (pstripList (cur.take (findSplitPoint cur cfg.chunk_size))) ++
       ' ' :: pstripList (cur.drop (findSplitPoint cur cfg.chunk_size))).length <
    cur.length := by
  obtain ⟨hlo, hhi⟩ := findSplitPoint_bounds hbig
  have hrem : (pstripList (cur.drop (findSplitPoint cur cfg.chunk_size))).length ≤
      cur.length - findSplitPoint cur cfg.chunk_size := by
    refine le_trans (pstripList_length_le _) ?_
    rw [List.length_drop]
  have hov := getOverlap_length_le cfg.overlap
    (pstripList (cur.take (findSplitPoint cur cfg.chunk_size)))
  split_ifs with hcase
  · omega
  · rw [List.length_append, List.length_cons]
    omega

theorem innerSplitFuel_bounds (cfg : ChunkCfg)
    (hcfg : cfg.overlap + 500 < cfg.chunk_size) :
    ∀ (fuel : Nat) (cur : List Char), cur.length ≤ fuel →
      (∀ c ∈ (innerSplitFuel cfg fuel cur).1, c.char_count ≤ cfg.chunk_size) ∧
      (innerSplitFuel cfg fuel cur).2.length ≤ cfg.chunk_size := by
  intro fuel
  induction fuel with
  | zero =>
    intro cur hc
    have hnil : cur = [] := List.length_eq_zero.mp (Nat.le_zero.mp hc)
    subst hnil
    constructor
    · intro c hcm; simp [innerSplitFuel] at hcm
    · simp [innerSplitFuel]
  | succ fuel ih =>
    intro cur hc
    by_cases hsmall : cur.length ≤ cfg.chunk_size
    · constructor
      · intro c hcm
        unfold innerSplitFuel at hcm
        rw [if_pos hsmall] at hcm
        simp at hcm
      · show (innerSplitFuel cfg (fuel + 1) cur).2.length ≤ _
        unfold innerSplitFuel
        rw [if_pos hsmall]
        exact hsmall
    · have hlt := innerSplit_next_lt cfg hcfg cur (not_le.mp hsmall)
      unfold innerSplitFuel
      rw [if_neg hsmall]
      dsimp only
      generalize hN : (if getOverlap cfg.overlap
          (pstripList (cur.take (findSplitPoint cur cfg.chunk_size))) = []
        then pstripList (cur.drop (findSplitPoint cur cfg.chunk_size))
        else getOverlap cfg.overlap
            (pstripList (cur.take (findSplitPoint cur cfg.chunk_size))) ++
          ' ' :: pstripList (cur.drop (findSplitPoint cur cfg.chunk_size))) = nxt
      rw [hN] at hlt
      have hnle : nxt.length ≤ fuel := by omega
      obtain ⟨ihc, ihf⟩ := ih nxt hnle
      constructor
      · intro c hcm
        rcases List.mem_append.mp hcm with hcm | hcm
        · split_ifs at hcm with hmin
          · rcases List.mem_singleton.mp hcm with rfl
            have hct : (pstripList
                (cur.take (findSplitPoint cur cfg.chunk_size))).length ≤
                findSplitPoint cur cfg.chunk_size := by
              refine le_trans (pstripList_length_le _) ?_
              rw [List.length_take]
              exact min_le_left _ _
            have hsp := (findSplitPoint_bounds (not_le.mp hsmall)).2
            show (pstripList (cur.take (findSplitPoint cur cfg.chunk_size))).length ≤ _
            omega
          · simp at hcm
        · exact ihc c hcm
      · exact ihf

theorem chunkStep_bounds (cfg : ChunkCfg)
    (hcfg : cfg.overlap + 500 < cfg.chunk_size)
    (st : List Chunk × List Char) (para : List Char)
    (h1 : ∀ c ∈ st.1, c.char_count ≤ cfg.chunk_size)
    (h2 : st.2.length ≤ cfg.chunk_size) :
    (∀ c ∈ (chunkStep cfg st para).1, c.char_count ≤ cfg.chunk_size) ∧
    (chunkStep cfg st para).2.length ≤ cfg.chunk_size := by
  unfold chunkStep
  dsimp only
  generalize hF : (if st.2 ≠ [] ∧ cfg.chunk_size < st.2.length + para.length + 2 then
      (st.1 ++ [mkChunk st.2],
        if getOverlap cfg.overlap st.2 = [] then para
        else getOverlap cfg.overlap st.2 ++ '\n' :: '\n' :: para)
    else (st.1, if st.2 = [] then para else st.2 ++ '\n' :: '\n' :: para)) = F
  have hF1 : ∀ c ∈ F.1, c.char_count ≤ cfg.chunk_size := by
    rw [← hF]
    split_ifs with hcond h3 h4
    · intro c hcm
      dsimp only at hcm
      rcases List.mem_append.mp hcm with hcm | hcm
      · exact h1 c hcm
      · rcases List.mem_singleton.mp hcm with rfl
        exact h2
    · intro c hcm
      dsimp only at hcm
      rcases List.mem_append.mp hcm with hcm | hcm
      · exact h1 c hcm
      · rcases List.mem_singleton.mp hcm with rfl
        exact h2
    · intro c hcm
      dsimp only at hcm
      exact h1 c hcm
    · intro c hcm
      dsimp only at hcm
      exact h1 c hcm
  obtain ⟨hic, hif⟩ := innerSplitFuel_bounds cfg hcfg (F.2.length + 1) F.2
    (Nat.le_succ _)
  exact ⟨fun c hcm => (List.mem_append.mp hcm).elim (hF1 c) (hic c), hif⟩

/-- **C6.** Chunk size bound: whenever the configuration leaves room for
the overlap inside the split look-back window (`overlap + 500 <
chunk_size`, amply satisfied by the default 4000/400/200 configuration),
every chunk produced by `chunk_text` has character count at most the
configured chunk size — including the hard-cut sub-chunks carved out of
an oversized semantic unit, which the split-point search always places
at or before the chunk-size boundary. -/
theorem chunk_text_size_bound (cfg : ChunkCfg) (text : String)
    (hcfg : cfg.overlap + 500 < cfg.chunk_size) :
    ∀ c ∈ chunk_text cfg text, c.char_count ≤ cfg.chunk_size := by
  unfold chunk_text
  split_ifs with h0
  · simp
  · dsimp only
    have hfold : ∀ (ps : List (List Char)) (st : List Chunk × List Char),
        (∀ c ∈ st.1, c.char_count ≤ cfg.chunk_size) →
        st.2.length ≤ cfg.chunk_size →
        (∀ c ∈ (ps.foldl (chunkStep cfg) st).1,
          c.char_count ≤ cfg.chunk_size) ∧
        (ps.foldl (chunkStep cfg) st).2.length ≤ cfg.chunk_size := by
      intro ps
      induction ps with
      | nil => intro st ha hb; exact ⟨ha, hb⟩
      | cons p ps ih =>
        intro st ha hb
        rw [List.foldl_cons]
        obtain ⟨g1, g2⟩ := chunkStep_bounds cfg hcfg st p ha hb
        exact ih _ g1 g2
    obtain ⟨g1, g2⟩ := hfold
      (((paraSplit text.data).map pstripList).filter (fun p => !p.isEmpty))
      ([], []) (by intro c hc; simp at hc) (by simp)
    split_ifs with hfin
    · intro c hc
      rcases List.mem_append.mp hc with hc | hc
      · exact g1 c hc
      · rcases List.mem_singleton.mp hc with rfl
        exact le_trans (pstripList_length_le _) g2
    · exact g1

/-- Witness for C6 at the default configuration. -/
theorem chunk_text_size_bound_witness :
    defaultChunkCfg.overlap + 500 < defaultChunkCfg.chunk_size ∧
    ∀ c ∈ chunk_text defaultChunkCfg "hello world",
      c.char_count ≤ defaultChunkCfg.chunk_size :=
  ⟨by decide, chunk_text_size_bound defaultChunkCfg "hello world" (by decide)⟩

end RAi

